import Mathlib

/-!
# Route tree and dispatch of `goa`

A shallow embedding of the prefix tree that the router uses to register and
look up routes (`src/tree.go`: `newNode`, `add`, `addToChildren`, `split`,
`lookup` and `lookupChildren`), of the dispatch of a request
(`src/router.go`: `ServeHTTP`, `defaultNotFound`) and of the default
body-logging policy (`src/middlewares/logger.go`: `defaultShouldLogBody`).

* A Go string is a list of symbols (`Str`); for the ASCII paths and patterns
  used here a symbol is a byte, and `len` is the length of the list.
* A Go slice that may be `nil` is an `Option (List _)`: `none` is `nil`,
  `some []` is an allocated slice of length zero. Captures are only ever
  observed through `len` and `append`, so they are a plain list.
* `*regexp.Regexp` is kept as the source text it was compiled from (what
  `Regexp.String()` returns); the two operations of the regexp package that
  the tree calls are the fields of `Regexp`. Patterns are taken to compile.
* The tree is mutated in place in Go and no node has two parents, so every
  mutating method returns the node it leaves behind.
* `commonPrefix` and `lookupCommonPrefix` are called by `add` and `lookup` but
  are not among the source files; they follow the specification.
-/

namespace Goa

/-- Go `string`. -/
abbrev Str := List Char

/-- A handler is identified by a number; the tree never calls it. -/
abbrev handlerFunc := Nat

/-- Result codes of `add` (`src/tree.go`, lines 10-14). -/
def addResultNoCommonPrefix : Nat := 0

/-- Result code: the route was registered. -/
def addResultSuccess : Nat := 1

/-- Result code: the route is already registered. -/
def addResultConflict : Nat := 2

/-- The type `node` of `src/tree.go`: `static`, `dynamic`, `handlers`, `children`.
`dynamic` holds the source of the compiled pattern, leading `^` included. -/
inductive node where
  | mk (static : Str) (dynamic : Option Str) (handlers : Option (List handlerFunc))
      (children : List node) : node

namespace node

/-- Field `static`. -/
def static : node → Str
  | mk s _ _ _ => s

/-- Field `dynamic`. -/
def dynamic : node → Option Str
  | mk _ d _ _ => d

/-- Field `handlers`. -/
def handlers : node → Option (List handlerFunc)
  | mk _ _ h _ => h

/-- Field `children`. -/
def children : node → List node
  | mk _ _ _ cs => cs

end node

/-- Go `len` of a slice that may be `nil`. -/
def sliceLen {α : Type} : Option (List α) → Nat
  | none => 0
  | some l => l.length

/-- The operations of Go's `regexp` package used by the tree.
`compiles src` says whether `regexp.MustCompile(src)` returns (it panics on a
source that does not parse); `literalComplete src` is the second result of
`regexp.MustCompile(src).LiteralPrefix()`; `find src path` is the text matched by
the pattern compiled from `src` in `path` (`none` when it does not match). -/
structure Regexp where
  compiles : Str → Bool
  literalComplete : Str → Bool
  find : Str → Str → Option Str

/-- Longest common prefix of two strings. -/
def lcp : Str → Str → Str
  | a :: as, b :: bs => if a = b then a :: lcp as bs else []
  | _, _ => []

/-- The text a node stands for: `static`, or the pattern source without its
leading `^`. -/
def node.text (n : node) : Str :=
  match n.dynamic with
  | some src => src.drop 1
  | none => n.static

/-- Modelled from the spec: `node.commonPrefix` is called by `add` but is not
among the source files. Spec 4.1 step 1 and the glossary: the longest shared
leading text between the node's own matched text (the literal prefix, or the
pattern source minus its anchor) and the incoming path. -/
def node.commonPrefix (n : node) (path : Str) (_static : Bool) : Str :=
  lcp n.text path

/-- Modelled from the spec: `node.lookupCommonPrefix` is called by `lookup` but
is not among the source files. Spec 4.2 step 1: for a literal node an exact
prefix compare; for a dynamic node the pattern is applied at the start of the
path and the matched substring is taken, which becomes a capture. -/
def node.lookupCommonPrefix (re : Regexp) (n : node) (path : Str) : Str × List Str :=
  match n.dynamic with
  | some src =>
    match re.find src path with
    | some m => (m, [m])
    | none => ([], [])
  | none => if n.static.isPrefixOf path then (n.static, []) else ([], [])

/-- `newNode` (`src/tree.go`, lines 24-34). The result is `none` where Go
panics: `regexp.MustCompile(path)` (line 28) or `regexp.MustCompile("^" + path)`
(line 31) on a source that does not compile. A literal path is not compiled. -/
def newNode (re : Regexp) (path : Str) (static : Bool)
    (handlers : Option (List handlerFunc)) : Option node :=
  if static then some (node.mk path none handlers [])
  else if re.compiles path then
    if re.literalComplete path then some (node.mk path none handlers [])
    else if re.compiles ('^' :: path) then
      some (node.mk [] (some ('^' :: path)) handlers [])
    else none
  else none

/-- `node.split` (`src/tree.go`, lines 82-100). The result is `none` where Go
panics: a slice bound out of range, `n.dynamic` dereferenced while `nil`, or
`regexp.MustCompile` on a source that does not compile (in `newNode` at line
88, and at lines 89 and 93). -/
def node.split (re : Regexp) (n : node) (path : Str) : Option node :=
  if 0 < n.static.length then
    if path.length ≤ n.static.length then
      match newNode re (n.static.drop path.length) true n.handlers with
      | none => none
      | some child =>
        some (node.mk path n.dynamic none
          [node.mk child.static child.dynamic child.handlers n.children])
    else none
  else
    match n.dynamic with
    | none => none
    | some src =>
      if path.length + 1 ≤ src.length then
        match newNode re (src.drop (path.length + 1)) false n.handlers with
        | none => none
        | some child =>
          if re.compiles path then
            if re.literalComplete path then
              some (node.mk path none none
                [node.mk child.static child.dynamic child.handlers n.children])
            else if re.compiles ('^' :: path) then
              some (node.mk n.static (some ('^' :: path)) none
                [node.mk child.static child.dynamic child.handlers n.children])
            else none
          else none
      else none

mutual
/-- `node.lookup` (`src/tree.go`, lines 102-120): found flag, handlers, captures. -/
def node.lookup (re : Regexp) : node → Str → Bool × Option (List handlerFunc) × List Str
  | node.mk s d h cs, path =>
    let r := node.lookupCommonPrefix re (node.mk s d h cs) path
    if r.1.length = 0 then (false, none, [])
    else
      let childPath := path.drop r.1.length
      if childPath.length = 0 then
        if 0 < sliceLen h then (true, h, r.2) else (true, none, [])
      else
        let c := lookupChildren re cs childPath
        if 0 < sliceLen c.1 then (true, c.1, r.2 ++ c.2) else (true, none, [])
/-- `node.lookupChildren` (`src/tree.go`, lines 122-129), on the children list. -/
def lookupChildren (re : Regexp) : List node → Str → Option (List handlerFunc) × List Str
  | [], _ => (none, [])
  | c :: cs, childPath =>
    let r := node.lookup re c childPath
    if r.1 then r.2 else lookupChildren re cs childPath
end

/-- The loop `for ; i < l && len(n.children[i].static) > 0; i++` of
`addToChildren`: the number of leading children with a non-empty `static`. -/
def staticRun : List node → Nat
  | [] => 0
  | c :: cs => if 0 < c.static.length then staticRun cs + 1 else 0

/-- Lines 66-77 of `addToChildren`: where the new child goes. A child with a
non-empty `static` is put before the first child without one when the last
child is dynamic; otherwise the new child is appended. -/
def insertChild (children : List node) (child : node) : List node :=
  if 0 < children.length ∧ 0 < child.static.length ∧
      (children.getLast?.bind node.dynamic).isSome then
    children.take (staticRun children) ++ child :: children.drop (staticRun children)
  else children ++ [child]

/-- Lines 61-65 of `addToChildren`: offer the path to each child in order.
`step` is `child.add(path, static, handlers)`. The result is `some none` when
every child answered `addResultNoCommonPrefix`, and `none` when a call gave
no result. -/
def addLoop (step : node → Option (Nat × node)) :
    List node → Option (Option (Nat × List node))
  | [] => some none
  | c :: cs =>
    match step c with
    | none => none
    | some (r, c1) =>
      if r ≠ addResultNoCommonPrefix then some (some (r, c1 :: cs))
      else
        match addLoop step cs with
        | none => none
        | some none => some none
        | some (some (r1, cs1)) => some (some (r1, c1 :: cs1))

/-- `node.addToChildren` (`src/tree.go`, lines 60-79); `add` is the method
`node.add` it calls on the children. The result is `none` when a call on a
child gave no result or `newNode` panics. -/
def node.addToChildren (re : Regexp)
    (add : node → Str → Bool → Option (List handlerFunc) → Option (Nat × node))
    (n : node) (path : Str) (static : Bool) (handlers : Option (List handlerFunc)) :
    Option (Nat × node) :=
  match addLoop (fun c => add c path static handlers) n.children with
  | none => none
  | some (some (r, cs)) => some (r, node.mk n.static n.dynamic n.handlers cs)
  | some none =>
    match newNode re path static handlers with
    | none => none
    | some child =>
      some (addResultSuccess, node.mk n.static n.dynamic n.handlers
        (insertChild n.children child))

/-- `node.add` (`src/tree.go`, lines 37-58) with a bound on the depth of the
calls; `none` when the bound is reached or the call panics (in `split`, in
`newNode` or in a nested call). The result is the
code returned together with the node as the call leaves it. -/
def node.addFuel (re : Regexp) :
    Nat → node → Str → Bool → Option (List handlerFunc) → Option (Nat × node)
  | 0, _, _, _, _ => none
  | fuel + 1, n, path, static, handlers =>
    let commonPrefix := n.commonPrefix path static
    if commonPrefix.length = 0 then some (addResultNoCommonPrefix, n)
    else
      let n1 :=
        if commonPrefix.length < n.static.length ∨
            (n.dynamic.isSome ∧ commonPrefix.length < (n.dynamic.getD []).length - 1) then
          n.split re commonPrefix
        else some n
      match n1 with
      | none => none
      | some n1 =>
        let childPath := path.drop commonPrefix.length
        if childPath.length = 0 then
          if n1.handlers.isNone then
            some (addResultSuccess, node.mk n1.static n1.dynamic handlers n1.children)
          else some (addResultConflict, n1)
        else n1.addToChildren re (node.addFuel re fuel) childPath static handlers

/-- `node.add`: every nested call consumes a non-empty prefix of the path, so
a depth of `path.length + 1` is never reached. -/
def node.add (re : Regexp) (n : node) (path : Str) (static : Bool)
    (handlers : Option (List handlerFunc)) : Option (Nat × node) :=
  node.addFuel re (path.length + 1) n path static handlers

/-! ## A fragment of Go's regexp syntax

Enough of the syntax to run the tree on concrete patterns: a pattern is a
sequence of literal characters, of metacharacters escaped by a backslash, and
of repeated ranges `[lo-hi]+`. -/

/-- One item of a pattern of the fragment. -/
inductive Item where
  | lit (c : Char) : Item
  | plus (lo hi : Char) : Item
  deriving DecidableEq

/-- The metacharacters of Go's regexp syntax. -/
def isMeta (c : Char) : Bool :=
  c ∈ ['\\', '.', '+', '*', '?', '(', ')', '|', '[', ']', '\x7b', '\x7d', '^', '$']

/-- Parse a pattern of the fragment; `none` outside the fragment. -/
def parseItems : Str → Option (List Item)
  | [] => some []
  | c :: rest =>
    if c = '[' then
      match rest with
      | lo :: m :: hi :: c1 :: c2 :: rest1 =>
        if m = '-' ∧ c1 = ']' ∧ c2 = '+' ∧ !isMeta lo ∧ !isMeta hi then
          (parseItems rest1).map (fun is => Item.plus lo hi :: is)
        else none
      | _ => none
    else if c = '\\' then
      match rest with
      | e :: rest1 =>
        if isMeta e then (parseItems rest1).map (fun is => Item.lit e :: is) else none
      | [] => none
    else if isMeta c then none
    else (parseItems rest).map (fun is => Item.lit c :: is)

/-- Match `[lo-hi]+` at the start of the path, then `k` on what follows:
as many characters as possible first (the repetition is greedy). -/
def matchPlus (lo hi : Char) (k : Str → Option Str) : Str → Option Str
  | [] => none
  | x :: xs =>
    if lo ≤ x ∧ x ≤ hi then
      match matchPlus lo hi k xs with
      | some m => some (x :: m)
      | none => (k xs).map (fun m => x :: m)
    else none

/-- The text matched by the items at the start of the path. -/
def matchItems : List Item → Str → Option Str
  | [], _ => some []
  | Item.lit c :: is, path =>
    match path with
    | x :: xs => if x = c then (matchItems is xs).map (fun m => x :: m) else none
    | [] => none
  | Item.plus lo hi :: is, path => matchPlus lo hi (matchItems is) path

/-- Go's regexp on the fragment. A source compiles when it is a pattern of the
fragment, with or without a leading `^`; Go compiles other sources as well,
and rejects those that the theorems below use as failing to compile, `(`,
`+` and `+b`. `find` is defined for the anchored sources the tree compiles (`^`
followed by a pattern of the fragment). -/
def goRegexp : Regexp where
  compiles := fun src =>
    match src with
    | '^' :: p => (parseItems p).isSome
    | _ => (parseItems src).isSome
  literalComplete := fun src =>
    match parseItems src with
    | some is => is.all (fun i => match i with | Item.lit _ => true | Item.plus _ _ => false)
    | none => false
  find := fun src path =>
    match src with
    | '^' :: p => (parseItems p).bind (fun is => matchItems is path)
    | _ => none

/-! ## Invariants and reachable trees -/

mutual
/-- The property `P` holds of the node and of every node below it. -/
def node.all (P : node → Prop) : node → Prop
  | node.mk s d h cs => P (node.mk s d h cs) ∧ allList P cs
/-- The property `P` holds of every node of the trees of the list. -/
def allList (P : node → Prop) : List node → Prop
  | [] => True
  | c :: cs => c.all P ∧ allList P cs
end

/-- Every node of the tree is literal: `dynamic` is `nil`. -/
def node.allLiteral (n : node) : Prop :=
  n.all (fun m => m.dynamic = none)

/-- The children have a non-empty `static` and begin with pairwise distinct
characters. -/
def branchOk (cs : List node) : Prop :=
  (∀ c ∈ cs, c.static ≠ []) ∧ cs.Pairwise (fun a b => a.static.head? ≠ b.static.head?)

/-- At every node of the tree the children have a non-empty `static` and begin
with pairwise distinct characters. -/
def node.branching (n : node) : Prop :=
  n.all (fun m => branchOk m.children)

/-- No node of the tree holds an allocated handler chain of length zero. -/
def node.chainsOk (n : node) : Prop :=
  n.all (fun m => m.handlers ≠ some [])

/-- The trees reachable from `newNode(p0, true, h0)` by calls
`add(p, true, h)` with a non-empty handler chain `h`, whatever they return. -/
inductive Built (re : Regexp) (p0 : Str) (h0 : Option (List handlerFunc)) : node → Prop
  | root {n : node} : newNode re p0 true h0 = some n → Built re p0 h0 n
  | add {n n1 : node} {r : Nat} (p : Str) (h : Option (List handlerFunc)) :
      Built re p0 h0 n → 0 < sliceLen h → n.add re p true h = some (r, n1) →
      Built re p0 h0 n1

/-! ## Example trees -/

/-- The tree left by registering `[a-z]+/[0-9]+` and then `[a-z]+/x`: two
dynamic nodes in a chain. -/
def exampleChain : node :=
  node.mk [] (some "^[a-z]+/".toList) none
    [node.mk "x".toList none (some [2]) [],
      node.mk [] (some "^[0-9]+".toList) (some [1]) []]

/-- The tree left by registering `/[a-z]+/x`, `/[a-z]+/y` and `/b[a-z]+/z`. -/
def exampleShadow : node :=
  node.mk "/".toList none none
    [node.mk [] (some "^[a-z]+/".toList) none
        [node.mk "x".toList none (some [1]) [], node.mk "y".toList none (some [2]) []],
      node.mk [] (some "^b[a-z]+/z".toList) (some [3]) []]

/-- The tree left by registering `/foo/bar` and then `/foo/baz`. -/
def exampleTwoRoutes : node :=
  node.mk "/foo/ba".toList none none
    [node.mk "r".toList none (some [1]) [], node.mk "z".toList none (some [2]) []]

/-- The tree left by registering the pattern `/[a-z]+`, the pattern
`/ab[0-9]+` and then the literal path `/ac`. -/
def exampleMisordered : node :=
  node.mk "/".toList none none
    [node.mk [] (some "^[a-z]+".toList) (some [1]) [],
      node.mk "a".toList none none
        [node.mk "c".toList none (some [3]) [],
          node.mk [] (some "^b[0-9]+".toList) (some [2]) []]]

/-- No dynamic child comes before a literal child. -/
def staticsFirst : List node → Bool
  | [] => true
  | c :: cs => (c.dynamic.isNone || cs.all (fun x => x.dynamic.isSome)) && staticsFirst cs

/-! ## Dispatch (`src/router.go`) and the logging policy (`src/middlewares/logger.go`) -/

/-- The part of `*http.Request` that `ServeHTTP` and the middleware read. -/
structure Request where
  Method : Str
  Path : Str

/-- One call received by an `http.ResponseWriter`. -/
inductive WriterCall where
  | WriteHeader (code : Nat) : WriterCall
  | Write (body : Str) : WriterCall
  deriving DecidableEq

/-- The fields of `Context` that `ServeHTTP` sets. `ResponseWriter` is `none`
for a `nil` writer, and otherwise the calls the writer has received, oldest
first. -/
structure Context where
  Request : Request
  ResponseWriter : Option (List WriterCall)
  handlers : Option (List handlerFunc)
  params : List Str
  index : Int

/-- The type `Router`: `Lookup` stands for the method of the embedded `Group`,
which is not among the source files; `notFound` is the field of that name, a
handler acting on the context. -/
structure Router where
  Lookup : Str → Str → Option (List handlerFunc) × List Str
  notFound : Context → Context

/-- A call that `ServeHTTP` makes, with the context it passes. -/
inductive Call where
  | notFound (ctx : Context) : Call
  | Next (ctx : Context) : Call

/-- `Router.ServeHTTP` (`src/router.go`, lines 29-37). `Next` is `ctx.Next()`,
which is not among the source files. The result is the calls made, in order,
and the context as the call made leaves it. -/
def Router.ServeHTTP (r : Router) (Next : Context → Context)
    (rw : Option (List WriterCall)) (req : Request) : List Call × Context :=
  let found := r.Lookup req.Method req.Path
  let ctx : Context :=
    { Request := req, ResponseWriter := rw, handlers := found.1, params := found.2,
      index := -1 }
  if sliceLen found.1 = 0 then ([Call.notFound ctx], r.notFound ctx)
  else ([Call.Next ctx], Next ctx)

/-- The body written by `defaultNotFound`. -/
def notFoundBody : Str := "\x7b\"code\":\"404\",\"message\":\"Not Found.\"\x7d".toList

/-- `defaultNotFound` (`src/router.go`, lines 47-52). -/
def defaultNotFound (ctx : Context) : Context :=
  match ctx.ResponseWriter with
  | some calls =>
    { ctx with
      ResponseWriter := some (calls ++ [WriterCall.WriteHeader 404, WriterCall.Write notFoundBody]) }
  | none => ctx

/-- `New` (`src/router.go`, lines 22-27): the not-found handler is
`defaultNotFound`. The routes of the new router are those of `Lookup`. -/
def New (Lookup : Str → Str → Option (List handlerFunc) × List Str) : Router :=
  { Lookup := Lookup, notFound := defaultNotFound }

/-- `http.MethodPost`. -/
def MethodPost : Str := "POST".toList

/-- `http.MethodDelete`. -/
def MethodDelete : Str := "DELETE".toList

/-- `http.MethodPut`. -/
def MethodPut : Str := "PUT".toList

/-- `defaultShouldLogBody` (`src/middlewares/logger.go`, lines 88-93), as a
function of `c.Request.Method`. -/
def defaultShouldLogBody (method : Str) : Bool :=
  method == MethodPost || method == MethodDelete || method == MethodPut

/-- The node is of exactly one kind: a non-empty `static` and no pattern, or a
pattern and an empty `static`. -/
def node.oneKind (m : node) : Prop :=
  (m.static ≠ [] ∧ m.dynamic = none) ∨ (m.static = [] ∧ m.dynamic ≠ none)

/-- The trees reachable from `n0` by calls of `add` with any path, literal or
not, and any handler chain, whatever they return. -/
inductive Reachable (re : Regexp) (n0 : node) : node → Prop
  | start : Reachable re n0 n0
  | add {n n1 : node} {r : Nat} (p : Str) (static : Bool) (h : Option (List handlerFunc)) :
      Reachable re n0 n → n.add re p static h = some (r, n1) → Reachable re n0 n1

/-- No node of the tree has both a non-empty `static` and a pattern. -/
def node.notBoth (n : node) : Prop :=
  n.all (fun m => m.dynamic ≠ none → m.static = [])

/-- `PathTo n q m`: the node `m` is reached from `n` by going from a node to one
of its children, and `q` is the concatenation of the `static` texts of the
nodes on the way, `n` and `m` included. -/
inductive PathTo : node → Str → node → Prop
  | here (n : node) : PathTo n n.static n
  | child (n c m : node) (t : Str) : c ∈ n.children → PathTo c t m →
      PathTo n (n.static ++ t) m

/-- The trees reachable from `newNode(p0, true, h0)` by calls `add(p, true, h)`
with any handler chain `h`, whatever they return. -/
inductive BuiltLiteral (re : Regexp) (p0 : Str) (h0 : Option (List handlerFunc)) :
    node → Prop
  | root {n : node} : newNode re p0 true h0 = some n → BuiltLiteral re p0 h0 n
  | add {n n1 : node} {r : Nat} (p : Str) (h : Option (List handlerFunc)) :
      BuiltLiteral re p0 h0 n → n.add re p true h = some (r, n1) → BuiltLiteral re p0 h0 n1

/-! # Theorems -/

/-! ## Longest common prefix -/

theorem lcp_nil_left (b : Str) : lcp [] b = [] := by
  cases b <;> rfl

theorem lcp_nil_right (a : Str) : lcp a [] = [] := by
  cases a <;> rfl

theorem lcp_cons (a b : Char) (as bs : Str) :
    lcp (a :: as) (b :: bs) = if a = b then a :: lcp as bs else [] := rfl

/-- Both strings are the common prefix followed by remainders that share no
first character. -/
theorem lcp_split (a b : Str) :
    a = lcp a b ++ a.drop (lcp a b).length ∧ b = lcp a b ++ b.drop (lcp a b).length ∧
      lcp (a.drop (lcp a b).length) (b.drop (lcp a b).length) = [] := by
  induction a generalizing b with
  | nil => simp [lcp_nil_left]
  | cons x xs ih =>
    cases b with
    | nil => simp [lcp_nil_right]
    | cons y ys =>
      by_cases hxy : x = y
      · subst hxy
        have h := ih ys
        simp only [lcp_cons, if_true, List.length_cons, List.drop_succ_cons, List.cons_append]
        exact ⟨by rw [← h.1], by rw [← h.2.1], h.2.2⟩
      · simp [lcp_cons, hxy]

theorem lcp_length_le_left (a b : Str) : (lcp a b).length ≤ a.length := by
  have h := congrArg List.length (lcp_split a b).1
  simp only [List.length_append] at h
  omega

theorem lcp_length_le_right (a b : Str) : (lcp a b).length ≤ b.length := by
  have h := congrArg List.length (lcp_split a b).2.1
  simp only [List.length_append] at h
  omega

theorem lcp_prefix_left (a b : Str) : lcp a b <+: a :=
  ⟨_, (lcp_split a b).1.symm⟩

theorem lcp_prefix_right (a b : Str) : lcp a b <+: b :=
  ⟨_, (lcp_split a b).2.1.symm⟩

theorem lcp_eq_nil_iff (a b : Str) : lcp a b = [] ↔ a = [] ∨ b = [] ∨ a.head? ≠ b.head? := by
  cases a with
  | nil => simp [lcp_nil_left]
  | cons x xs =>
    cases b with
    | nil => simp [lcp_nil_right]
    | cons y ys =>
      by_cases hxy : x = y <;> simp [lcp_cons, hxy]

theorem lcp_of_isPrefix {a b : Str} (h : a <+: b) : lcp a b = a := by
  induction a generalizing b with
  | nil => exact lcp_nil_left b
  | cons x xs ih =>
    cases b with
    | nil => simp at h
    | cons y ys =>
      rw [List.cons_prefix_cons] at h
      obtain ⟨rfl, h⟩ := h
      simp [lcp_cons, ih h]

theorem lcp_eq_left_iff (a b : Str) : lcp a b = a ↔ a <+: b :=
  ⟨fun h => h ▸ lcp_prefix_right a b, lcp_of_isPrefix⟩

theorem lcp_length_eq_iff (a b : Str) : (lcp a b).length = a.length ↔ a <+: b := by
  rw [← lcp_eq_left_iff]
  constructor
  · intro h
    exact List.IsPrefix.eq_of_length (lcp_prefix_left a b) h
  · intro h
    rw [h]

/-! ## Unfolding the definitions -/

theorem allList_iff (P : node → Prop) (cs : List node) :
    allList P cs ↔ ∀ c ∈ cs, c.all P := by
  induction cs with
  | nil => simp [allList]
  | cons c cs ih => simp [allList, ih]

theorem node.all_mk (P : node → Prop) (s : Str) (d : Option Str)
    (h : Option (List handlerFunc)) (cs : List node) :
    (node.mk s d h cs).all P ↔ P (node.mk s d h cs) ∧ ∀ c ∈ cs, c.all P := by
  rw [node.all, allList_iff]

theorem sliceLen_pos_iff (h : Option (List handlerFunc)) :
    0 < sliceLen h ↔ h ≠ none ∧ h ≠ some [] := by
  cases h with
  | none => simp [sliceLen]
  | some l => cases l <;> simp [sliceLen]

/-- Lookup at a literal node. -/
theorem lookup_literal (re : Regexp) (s : Str) (h : Option (List handlerFunc))
    (cs : List node) (path : Str) :
    node.lookup re (node.mk s none h cs) path =
      if s = [] ∨ ¬ s <+: path then (false, none, [])
      else if path.drop s.length = [] then
        (if 0 < sliceLen h then (true, h, []) else (true, none, []))
      else if 0 < sliceLen (lookupChildren re cs (path.drop s.length)).1 then
        (true, (lookupChildren re cs (path.drop s.length)).1,
          (lookupChildren re cs (path.drop s.length)).2)
      else (true, none, []) := by
  rw [node.lookup]
  simp only [node.lookupCommonPrefix, node.dynamic, node.static, List.isPrefixOf_iff_prefix]
  by_cases hp : s <+: path
  · by_cases hs : s = []
    · simp [hs]
    · simp [hp, hs, List.length_eq_zero, Nat.sub_eq_zero_iff_le]
  · simp [hp]

theorem lookupChildren_nil (re : Regexp) (q : Str) : lookupChildren re [] q = (none, []) := by
  rw [lookupChildren]

theorem lookupChildren_cons (re : Regexp) (c : node) (cs : List node) (q : Str) :
    lookupChildren re (c :: cs) q =
      if (node.lookup re c q).1 then (node.lookup re c q).2 else lookupChildren re cs q := by
  rw [lookupChildren]

/-- Whether lookup at a literal node reports a match depends on its text only. -/
theorem lookup_literal_found (re : Regexp) (n : node) (hd : n.dynamic = none) (path : Str) :
    (node.lookup re n path).1 = true ↔ n.static ≠ [] ∧ n.static <+: path := by
  cases n with
  | mk s d h cs =>
    simp only [node.dynamic] at hd
    subst hd
    rw [lookup_literal]
    simp only [node.static]
    by_cases hs : s = [] <;> by_cases hp : s <+: path <;> simp [hs, hp]
    split_ifs <;> simp

theorem newNode_static (re : Regexp) (path : Str) (h : Option (List handlerFunc)) :
    newNode re path true h = some (node.mk path none h []) := by
  simp [newNode]

/-- One call of `add` on a literal node with a literal path. -/
theorem addFuel_literal (re : Regexp) (fuel : Nat) (s : Str) (h : Option (List handlerFunc))
    (cs : List node) (path : Str) (hs : Option (List handlerFunc)) :
    node.addFuel re (fuel + 1) (node.mk s none h cs) path true hs =
      if lcp s path = [] then some (addResultNoCommonPrefix, node.mk s none h cs)
      else if (lcp s path).length < s.length then
        (if path.drop (lcp s path).length = [] then
          some (addResultSuccess, node.mk (lcp s path) none hs
            [node.mk (s.drop (lcp s path).length) none h cs])
        else
          node.addToChildren re (node.addFuel re fuel)
            (node.mk (lcp s path) none none [node.mk (s.drop (lcp s path).length) none h cs])
            (path.drop (lcp s path).length) true hs)
      else
        (if path.drop (lcp s path).length = [] then
          (if h.isNone then some (addResultSuccess, node.mk s none hs cs)
          else some (addResultConflict, node.mk s none h cs))
        else
          node.addToChildren re (node.addFuel re fuel) (node.mk s none h cs)
            (path.drop (lcp s path).length) true hs) := by
  rw [node.addFuel]
  simp only [node.commonPrefix, node.text, node.dynamic, node.static, Option.isSome_none,
    Bool.false_eq_true, false_and, or_false, List.length_eq_zero]
  by_cases h0 : lcp s path = []
  · simp [h0]
  · simp only [h0, if_false]
    by_cases hlt : (lcp s path).length < s.length
    · have hpos : 0 < s.length := by omega
      have hle : (lcp s path).length ≤ s.length := by omega
      simp only [hlt, if_true, node.split, node.static, hpos, hle, newNode_static,
        node.handlers, node.children, node.dynamic, Option.isNone_none]
    · simp only [hlt, if_false, node.handlers, node.static, node.dynamic, node.children]

/-! ## The loop of `addToChildren` -/

theorem addLoop_nil (step : node → Option (Nat × node)) : addLoop step [] = some none := rfl

theorem addLoop_cons_zero (step : node → Option (Nat × node)) (c c1 : node) (cs : List node)
    (h : step c = some (addResultNoCommonPrefix, c1)) :
    addLoop step (c :: cs) =
      match addLoop step cs with
      | none => none
      | some none => some none
      | some (some (r1, cs1)) => some (some (r1, c1 :: cs1)) := by
  simp [addLoop, h]

theorem addLoop_cons_ne (step : node → Option (Nat × node)) (c c1 : node) (cs : List node)
    (r : Nat) (h : step c = some (r, c1)) (hr : r ≠ addResultNoCommonPrefix) :
    addLoop step (c :: cs) = some (some (r, c1 :: cs)) := by
  simp [addLoop, h, hr]

/-- The loop never hands back `addResultNoCommonPrefix` as a child's answer. -/
theorem addLoop_code_ne_zero (step : node → Option (Nat × node)) (cs : List node)
    (r : Nat) (cs1 : List node) (h : addLoop step cs = some (some (r, cs1))) :
    r ≠ addResultNoCommonPrefix := by
  induction cs generalizing cs1 with
  | nil => simp [addLoop] at h
  | cons c cs ih =>
    rw [addLoop] at h
    cases hc : step c with
    | none => simp [hc] at h
    | some p =>
      obtain ⟨r0, c1⟩ := p
      simp only [hc] at h
      by_cases hr : r0 = addResultNoCommonPrefix
      · simp only [hr, ne_eq, not_true_eq_false, if_false] at h
        cases hl : addLoop step cs with
        | none => simp [hl] at h
        | some o =>
          cases o with
          | none => simp [hl] at h
          | some q =>
            obtain ⟨r1, cs2⟩ := q
            simp only [hl, Option.some.injEq, Prod.mk.injEq] at h
            obtain ⟨rfl, -⟩ := h
            exact ih cs2 hl
      · simp only [ne_eq, hr, not_false_eq_true, if_true, Option.some.injEq,
          Prod.mk.injEq] at h
        obtain ⟨rfl, -⟩ := h
        exact hr

/-- `add` answers `addResultNoCommonPrefix` only when the common prefix is empty,
and then leaves the node as it was. -/
theorem addFuel_zero (re : Regexp) (fuel : Nat) (n : node) (path : Str) (static : Bool)
    (hs : Option (List handlerFunc)) (r : Nat) (n1 : node)
    (h : node.addFuel re fuel n path static hs = some (r, n1)) :
    r = addResultNoCommonPrefix ↔ n.commonPrefix path static = [] := by
  cases fuel with
  | zero => simp [node.addFuel] at h
  | succ fuel =>
    rw [node.addFuel] at h
    simp only [List.length_eq_zero] at h
    by_cases h0 : n.commonPrefix path static = []
    · simp only [h0, if_true, Option.some.injEq, Prod.mk.injEq] at h
      simp [h0, h.1.symm]
    · simp only [h0, if_false] at h
      simp only [h0, iff_false]
      split at h
      · simp at h
      · rename_i n2 hn2
        split_ifs at h
        · simp only [Option.some.injEq, Prod.mk.injEq] at h
          rw [← h.1]; decide
        · simp only [Option.some.injEq, Prod.mk.injEq] at h
          rw [← h.1]; decide
        · unfold node.addToChildren at h
          split at h
          · simp at h
          · rename_i r1 cs1 hl
            simp only [Option.some.injEq, Prod.mk.injEq] at h
            rw [← h.1]
            exact addLoop_code_ne_zero _ _ _ _ hl
          · split at h
            · simp at h
            · simp only [Option.some.injEq, Prod.mk.injEq] at h
              rw [← h.1]; decide

theorem addFuel_zero_eq (re : Regexp) (fuel : Nat) (n : node) (path : Str) (static : Bool)
    (hs : Option (List handlerFunc)) (n1 : node)
    (h : node.addFuel re fuel n path static hs = some (addResultNoCommonPrefix, n1)) :
    n1 = n := by
  have h0 := (addFuel_zero re fuel n path static hs _ n1 h).1 rfl
  cases fuel with
  | zero => simp [node.addFuel] at h
  | succ fuel =>
    rw [node.addFuel] at h
    simp only [h0, List.length_nil, if_true, Option.some.injEq, Prod.mk.injEq] at h
    exact h.2.symm

/-- When every child answers `addResultNoCommonPrefix` the loop falls through. -/
theorem addLoop_eq_some_none (step : node → Option (Nat × node)) (cs : List node)
    (h : addLoop step cs = some none) :
    ∀ x ∈ cs, ∃ x1, step x = some (addResultNoCommonPrefix, x1) := by
  induction cs with
  | nil => simp
  | cons c cs ih =>
    rw [addLoop] at h
    cases hc : step c with
    | none => simp [hc] at h
    | some p =>
      obtain ⟨r0, c1⟩ := p
      simp only [hc] at h
      by_cases hr : r0 = addResultNoCommonPrefix
      · simp only [hr, ne_eq, not_true_eq_false, if_false] at h
        cases hl : addLoop step cs with
        | none => simp [hl] at h
        | some o =>
          cases o with
          | none =>
            intro x hx
            rcases List.mem_cons.1 hx with rfl | hx
            · exact ⟨c1, by rw [hc, hr]⟩
            · exact ih hl x hx
          | some q => simp [hl] at h
      · simp [hr] at h

/-- When the loop returns a child's answer, that child is the first one that did
not answer `addResultNoCommonPrefix`, and only it is replaced. -/
theorem addLoop_eq_some_some (step : node → Option (Nat × node))
    (hstep : ∀ x x1, step x = some (addResultNoCommonPrefix, x1) → x1 = x)
    (cs : List node) (r : Nat) (cs1 : List node)
    (h : addLoop step cs = some (some (r, cs1))) :
    r ≠ addResultNoCommonPrefix ∧ ∃ pre c c1 post, cs = pre ++ c :: post ∧
      cs1 = pre ++ c1 :: post ∧ step c = some (r, c1) ∧
      ∀ x ∈ pre, step x = some (addResultNoCommonPrefix, x) := by
  refine ⟨addLoop_code_ne_zero step cs r cs1 h, ?_⟩
  induction cs generalizing cs1 with
  | nil => simp [addLoop] at h
  | cons c cs ih =>
    rw [addLoop] at h
    cases hc : step c with
    | none => simp [hc] at h
    | some p =>
      obtain ⟨r0, c1⟩ := p
      simp only [hc] at h
      by_cases hr : r0 = addResultNoCommonPrefix
      · simp only [hr, ne_eq, not_true_eq_false, if_false] at h
        subst hr
        have hc1 := hstep c c1 hc
        subst hc1
        cases hl : addLoop step cs with
        | none => simp [hl] at h
        | some o =>
          cases o with
          | none => simp [hl] at h
          | some q =>
            obtain ⟨r1, cs2⟩ := q
            simp only [hl, Option.some.injEq, Prod.mk.injEq] at h
            obtain ⟨rfl, rfl⟩ := h
            obtain ⟨pre, d, d1, post, h1, h2, h3, h4⟩ := ih cs2 hl
            refine ⟨c1 :: pre, d, d1, post, by simp [h1], by simp [h2], h3, ?_⟩
            intro x hx
            rcases List.mem_cons.1 hx with rfl | hx
            · exact hc
            · exact h4 x hx
      · simp only [ne_eq, hr, not_false_eq_true, if_true, Option.some.injEq,
          Prod.mk.injEq] at h
        obtain ⟨rfl, rfl⟩ := h
        exact ⟨[], c, c1, cs, rfl, rfl, hc, by simp⟩

theorem addLoop_of_all_zero (step : node → Option (Nat × node)) (cs : List node)
    (h : ∀ x ∈ cs, step x = some (addResultNoCommonPrefix, x)) :
    addLoop step cs = some none := by
  induction cs with
  | nil => rfl
  | cons c cs ih =>
    rw [addLoop_cons_zero step c c cs (h c (List.mem_cons_self _ _)),
      ih (fun x hx => h x (List.mem_cons_of_mem _ hx))]

theorem addLoop_of_first (step : node → Option (Nat × node)) (pre post : List node)
    (c c1 : node) (r : Nat) (hpre : ∀ x ∈ pre, step x = some (addResultNoCommonPrefix, x))
    (hc : step c = some (r, c1)) (hr : r ≠ addResultNoCommonPrefix) :
    addLoop step (pre ++ c :: post) = some (some (r, pre ++ c1 :: post)) := by
  induction pre with
  | nil => exact addLoop_cons_ne step c c1 post r hc hr
  | cons p pre ih =>
    rw [List.cons_append, addLoop_cons_zero step p p _ (hpre p (List.mem_cons_self _ _)),
      ih (fun x hx => hpre x (List.mem_cons_of_mem _ hx))]
    rfl

/-- The loop gives a result as soon as every call on a child does. -/
theorem addLoop_isSome (step : node → Option (Nat × node)) (cs : List node)
    (h : ∀ x ∈ cs, (step x).isSome) : (addLoop step cs).isSome := by
  induction cs with
  | nil => rfl
  | cons c cs ih =>
    have hc := h c (List.mem_cons_self _ _)
    have ht := ih (fun x hx => h x (List.mem_cons_of_mem _ hx))
    rw [addLoop]
    cases hsc : step c with
    | none => simp [hsc] at hc
    | some p =>
      obtain ⟨r0, c1⟩ := p
      simp only
      split_ifs
      · rfl
      · cases hl : addLoop step cs with
        | none => simp [hl] at ht
        | some o => cases o <;> rfl

/-! ## Lookup among the children -/

theorem lookupChildren_append_of_not_found (re : Regexp) (pre rest : List node) (q : Str)
    (h : ∀ x ∈ pre, (node.lookup re x q).1 = false) :
    lookupChildren re (pre ++ rest) q = lookupChildren re rest q := by
  induction pre with
  | nil => rfl
  | cons p pre ih =>
    rw [List.cons_append, lookupChildren_cons, h p (List.mem_cons_self _ _)]
    simpa using ih (fun x hx => h x (List.mem_cons_of_mem _ hx))

theorem lookupChildren_of_not_found (re : Regexp) (cs : List node) (q : Str)
    (h : ∀ x ∈ cs, (node.lookup re x q).1 = false) :
    lookupChildren re cs q = (none, []) := by
  have := lookupChildren_append_of_not_found re cs [] q h
  rwa [List.append_nil, lookupChildren_nil] at this

/-! ## `add` on literal trees -/

theorem commonPrefix_literal (n : node) (hd : n.dynamic = none) (path : Str) (static : Bool) :
    n.commonPrefix path static = lcp n.static path := by
  simp [node.commonPrefix, node.text, hd]

theorem insertChild_literal (cs : List node) (child : node)
    (hcs : ∀ c ∈ cs, c.dynamic = none) : insertChild cs child = cs ++ [child] := by
  unfold insertChild
  have : (cs.getLast?.bind node.dynamic).isSome = false := by
    cases hl : cs.getLast? with
    | none => rfl
    | some c =>
      have hc : c ∈ cs := List.mem_of_getLast?_eq_some hl
      simp [hcs c hc]
  simp [this]

/-- Lookup at a literal node fails when its text shares no prefix with the path. -/
theorem lookup_not_found_of_lcp (re : Regexp) (n : node) (hd : n.dynamic = none) (q : Str)
    (h : lcp n.static q = []) : (node.lookup re n q).1 = false := by
  rw [Bool.eq_false_iff]
  intro hf
  obtain ⟨h1, h2⟩ := (lookup_literal_found re n hd q).1 hf
  rw [lcp_of_isPrefix h2] at h
  exact h1 h

/-- The outcomes of one call of `add` with a literal path on a literal node
whose children are literal. -/
theorem addFuel_literal_cases (re : Regexp) (fuel : Nat) (s : Str)
    (h : Option (List handlerFunc)) (cs : List node) (path : Str)
    (hs : Option (List handlerFunc)) (r : Nat) (n1 : node)
    (hcs : ∀ c ∈ cs, c.dynamic = none)
    (hadd : node.addFuel re (fuel + 1) (node.mk s none h cs) path true hs = some (r, n1)) :
    (lcp s path = [] ∧ r = addResultNoCommonPrefix ∧ n1 = node.mk s none h cs) ∨
    (lcp s path ≠ [] ∧ (lcp s path).length < s.length ∧ path = lcp s path ∧
      r = addResultSuccess ∧
      n1 = node.mk path none hs [node.mk (s.drop path.length) none h cs]) ∨
    (lcp s path ≠ [] ∧ (lcp s path).length < s.length ∧
      path.drop (lcp s path).length ≠ [] ∧ r = addResultSuccess ∧
      n1 = node.mk (lcp s path) none none
        [node.mk (s.drop (lcp s path).length) none h cs,
          node.mk (path.drop (lcp s path).length) none hs []]) ∨
    (s ≠ [] ∧ path = s ∧ h = none ∧ r = addResultSuccess ∧ n1 = node.mk s none hs cs) ∨
    (s ≠ [] ∧ path = s ∧ h ≠ none ∧ r = addResultConflict ∧ n1 = node.mk s none h cs) ∨
    (s ≠ [] ∧ s <+: path ∧ path.drop s.length ≠ [] ∧ r ≠ addResultNoCommonPrefix ∧
      ∃ pre c c1 post, cs = pre ++ c :: post ∧ n1 = node.mk s none h (pre ++ c1 :: post) ∧
        node.addFuel re fuel c (path.drop s.length) true hs = some (r, c1) ∧
        (∀ x ∈ pre, lcp x.static (path.drop s.length) = []) ∧
        lcp c.static (path.drop s.length) ≠ []) ∨
    (s ≠ [] ∧ s <+: path ∧ path.drop s.length ≠ [] ∧ r = addResultSuccess ∧
      (∀ x ∈ cs, lcp x.static (path.drop s.length) = []) ∧
      n1 = node.mk s none h (cs ++ [node.mk (path.drop s.length) none hs []])) := by
  rw [addFuel_literal] at hadd
  have hsplit := lcp_split s path
  by_cases h0 : lcp s path = []
  · simp only [h0, if_true, Option.some.injEq, Prod.mk.injEq] at hadd
    exact Or.inl ⟨h0, hadd.1.symm, hadd.2.symm⟩
  · simp only [h0, if_false] at hadd
    right
    by_cases hlt : (lcp s path).length < s.length
    · simp only [hlt, if_true] at hadd
      by_cases hc : path.drop (lcp s path).length = []
      · simp only [hc, if_true, Option.some.injEq, Prod.mk.injEq] at hadd
        have hp : path = lcp s path := by
          have := hsplit.2.1
          rw [hc, List.append_nil] at this
          exact this
        left
        refine ⟨h0, hlt, hp, hadd.1.symm, ?_⟩
        rw [← hadd.2, ← hp]
      · simp only [hc, if_false] at hadd
        right; left
        refine ⟨h0, hlt, hc, ?_⟩
        unfold node.addToChildren at hadd
        simp only [node.children, node.static, node.dynamic, node.handlers] at hadd
        have hstep0 : ∀ r0 c1,
            node.addFuel re fuel (node.mk (s.drop (lcp s path).length) none h cs)
              (path.drop (lcp s path).length) true hs = some (r0, c1) →
            r0 = addResultNoCommonPrefix := by
          intro r0 c1 hr
          rw [addFuel_zero re fuel _ _ _ _ _ _ hr,
            commonPrefix_literal (node.mk (s.drop (lcp s path).length) none h cs) rfl]
          exact hsplit.2.2
        rw [addLoop] at hadd
        cases hst : node.addFuel re fuel (node.mk (s.drop (lcp s path).length) none h cs)
            (path.drop (lcp s path).length) true hs with
        | none => simp [hst] at hadd
        | some p =>
          obtain ⟨r0, c1⟩ := p
          have hr0 := hstep0 r0 c1 hst
          subst hr0
          have hc1 := addFuel_zero_eq re fuel _ _ _ _ _ hst
          subst hc1
          simp only [hst, ne_eq, not_true_eq_false, if_false, addLoop_nil, newNode_static,
            Option.some.injEq, Prod.mk.injEq] at hadd
          refine ⟨hadd.1.symm, ?_⟩
          rw [← hadd.2, insertChild_literal _ _ (by simp [node.dynamic])]
          rfl
    · simp only [hlt, if_false] at hadd
      have hlen : (lcp s path).length = s.length := by
        have := lcp_length_le_left s path
        omega
      have hpre : s <+: path := (lcp_length_eq_iff s path).1 hlen
      have hcp : lcp s path = s := lcp_of_isPrefix hpre
      rw [hcp] at hadd h0
      right; right
      by_cases hc : path.drop s.length = []
      · have hp : path = s := by
          have := hsplit.2.1
          rw [hcp, hc, List.append_nil] at this
          exact this
        simp only [hc, if_true] at hadd
        cases h with
        | none =>
          simp only [Option.isNone_none, if_true, Option.some.injEq, Prod.mk.injEq] at hadd
          exact Or.inl ⟨h0, hp, rfl, hadd.1.symm, hadd.2.symm⟩
        | some l =>
          simp only [Option.isNone_some, Bool.false_eq_true, if_false, Option.some.injEq,
            Prod.mk.injEq] at hadd
          exact Or.inr (Or.inl ⟨h0, hp, by simp, hadd.1.symm, hadd.2.symm⟩)
      · simp only [hc, if_false] at hadd
        right; right
        unfold node.addToChildren at hadd
        simp only [node.children, node.static, node.dynamic, node.handlers] at hadd
        cases hl : addLoop (fun c => node.addFuel re fuel c (path.drop s.length) true hs) cs with
        | none => simp [hl] at hadd
        | some o =>
          cases o with
          | some q =>
            obtain ⟨r1, cs1⟩ := q
            simp only [hl, Option.some.injEq, Prod.mk.injEq] at hadd
            obtain ⟨rfl, rfl⟩ := hadd
            obtain ⟨hne, pre, c, c1, post, e1, e2, e3, e4⟩ :=
              addLoop_eq_some_some _ (fun x x1 hx => addFuel_zero_eq re fuel _ _ _ _ _ hx)
                cs r1 cs1 hl
            left
            refine ⟨h0, hpre, hc, hne, pre, c, c1, post, e1, by rw [e2], e3, ?_, ?_⟩
            · intro x hx
              have hxd : x.dynamic = none := hcs x (by rw [e1]; simp [hx])
              have := (addFuel_zero re fuel _ _ _ _ _ _ (e4 x hx)).1 rfl
              rwa [commonPrefix_literal x hxd] at this
            · have hcd : c.dynamic = none := hcs c (by rw [e1]; simp)
              intro hz
              apply hne
              rw [addFuel_zero re fuel _ _ _ _ _ _ e3, commonPrefix_literal c hcd]
              exact hz
          | none =>
            simp only [hl, newNode_static, Option.some.injEq, Prod.mk.injEq] at hadd
            right
            refine ⟨h0, hpre, hc, hadd.1.symm, ?_, ?_⟩
            · intro x hx
              obtain ⟨x1, hx1⟩ := addLoop_eq_some_none _ cs hl x hx
              have := (addFuel_zero re fuel _ _ _ _ _ _ hx1).1 rfl
              rwa [commonPrefix_literal x (hcs x hx)] at this
            · rw [← hadd.2, insertChild_literal _ _ hcs]

theorem allLiteral_mk (s : Str) (d : Option Str) (h : Option (List handlerFunc))
    (cs : List node) :
    (node.mk s d h cs).allLiteral ↔ d = none ∧ ∀ c ∈ cs, c.allLiteral := by
  unfold node.allLiteral
  rw [node.all_mk]
  simp [node.dynamic]

theorem allLiteral_dynamic (n : node) (h : n.allLiteral) : n.dynamic = none := by
  cases n with
  | mk s d hh cs => exact ((allLiteral_mk s d hh cs).1 h).1

theorem lookup_leaf_self (re : Regexp) (p : Str) (h : Option (List handlerFunc))
    (cs : List node) (hp : p ≠ []) (hh : 0 < sliceLen h) :
    node.lookup re (node.mk p none h cs) p = (true, h, []) := by
  rw [lookup_literal]
  simp [hp, hh]

/-- A successful registration on a literal tree is found again, at any depth of
the calls. -/
theorem addFuel_success_lookup (re : Regexp) (h : Option (List handlerFunc))
    (hh : 0 < sliceLen h) (fuel : Nat) :
    ∀ (n : node) (p : Str) (n1 : node), n.allLiteral →
      node.addFuel re fuel n p true h = some (addResultSuccess, n1) →
      node.lookup re n1 p = (true, h, []) := by
  induction fuel with
  | zero => intro n p n1 _ hadd; simp [node.addFuel] at hadd
  | succ fuel ih =>
    intro n p n1 hlit hadd
    cases n with
    | mk s d h0 cs =>
      obtain ⟨hd, hcs⟩ := (allLiteral_mk s d h0 cs).1 hlit
      subst hd
      have hcd : ∀ c ∈ cs, c.dynamic = none := fun c hc => allLiteral_dynamic c (hcs c hc)
      rcases addFuel_literal_cases re fuel s h0 cs p h _ n1 hcd hadd with
        ⟨-, hr, -⟩ | ⟨h1, -, hp, -, rfl⟩ | ⟨h1, -, hc, -, rfl⟩ | ⟨h1, hp, -, -, rfl⟩ |
        ⟨-, -, -, hr, -⟩ | ⟨h1, hpre, hc, -, pre, c, c1, post, e1, rfl, e3, e4, -⟩ |
        ⟨h1, hpre, hc, -, hall, rfl⟩
      · exact absurd hr (by decide)
      · exact lookup_leaf_self re p h _ (by rw [hp]; exact h1) hh
      · have hsplit := lcp_split s p
        have hnew : node.lookup re (node.mk (p.drop (lcp s p).length) none h [])
            (p.drop (lcp s p).length) = (true, h, []) := lookup_leaf_self re _ h _ hc hh
        have hold : (node.lookup re (node.mk (s.drop (lcp s p).length) none h0 cs)
            (p.drop (lcp s p).length)).1 = false :=
          lookup_not_found_of_lcp re (node.mk (s.drop (lcp s p).length) none h0 cs) rfl _
            hsplit.2.2
        rw [lookup_literal]
        simp only [h1, lcp_prefix_right, not_true_eq_false, or_self, if_false, hc,
          lookupChildren_cons, hold, hnew, Bool.false_eq_true, if_true, hh]
      · subst hp
        exact lookup_leaf_self re p h _ h1 hh
      · exact absurd hr (by decide)
      · have hc1 : node.lookup re c1 (p.drop s.length) = (true, h, []) :=
          ih c (p.drop s.length) c1 (hcs c (by rw [e1]; simp)) e3
        have hprenf : ∀ x ∈ pre, (node.lookup re x (p.drop s.length)).1 = false :=
          fun x hx => lookup_not_found_of_lcp re x (hcd x (by rw [e1]; simp [hx])) _ (e4 x hx)
        rw [lookup_literal]
        simp only [h1, hpre, not_true_eq_false, or_self, if_false, hc,
          lookupChildren_append_of_not_found re pre _ _ hprenf, lookupChildren_cons, hc1,
          if_true, hh]
      · have hnf : ∀ x ∈ cs, (node.lookup re x (p.drop s.length)).1 = false :=
          fun x hx => lookup_not_found_of_lcp re x (hcd x hx) _ (hall x hx)
        have hnew : node.lookup re (node.mk (p.drop s.length) none h []) (p.drop s.length) =
            (true, h, []) := lookup_leaf_self re _ h _ hc hh
        rw [lookup_literal]
        simp only [h1, hpre, not_true_eq_false, or_self, if_false, hc,
          lookupChildren_append_of_not_found re cs _ _ hnf, lookupChildren_cons, hnew,
          if_true, hh]

/-- On a literal tree `add` with a literal path gives a result at every depth
above the length of the path. -/
theorem addFuel_isSome_literal (re : Regexp) (hs : Option (List handlerFunc)) (fuel : Nat) :
    ∀ (n : node) (p : Str), n.allLiteral → p.length < fuel →
      (node.addFuel re fuel n p true hs).isSome := by
  induction fuel with
  | zero => intro n p _ hp; omega
  | succ fuel ih =>
    intro n p hlit hp
    cases n with
    | mk s d h0 cs =>
      obtain ⟨hd, hcs⟩ := (allLiteral_mk s d h0 cs).1 hlit
      subst hd
      rw [addFuel_literal]
      have hdrop : lcp s p ≠ [] → (p.drop (lcp s p).length).length < fuel := by
        intro h0
        have : 0 < (lcp s p).length := List.length_pos.2 h0
        have := lcp_length_le_right s p
        rw [List.length_drop]
        omega
      have hloop : ∀ (m : node), m.allLiteral → lcp s p ≠ [] →
          (node.addToChildren re (node.addFuel re fuel) m (p.drop (lcp s p).length)
            true hs).isSome := by
        intro m hm h0
        have hmc : ∀ c ∈ m.children, c.allLiteral := by
          cases m with
          | mk ms md mh mcs => exact ((allLiteral_mk ms md mh mcs).1 hm).2
        have := addLoop_isSome
          (fun c => node.addFuel re fuel c (p.drop (lcp s p).length) true hs) m.children
          (fun x hx => ih x _ (hmc x hx) (hdrop h0))
        unfold node.addToChildren
        cases hl : addLoop (fun c => node.addFuel re fuel c (p.drop (lcp s p).length) true hs)
            m.children with
        | none => simp [hl] at this
        | some o => cases o <;> rfl
      split_ifs with h1 h2 h3 h4 h5
      · rfl
      · rfl
      · apply hloop _ _ h1
        rw [allLiteral_mk]
        refine ⟨rfl, ?_⟩
        intro c hc
        rw [List.mem_singleton] at hc
        subst hc
        rw [allLiteral_mk]
        exact ⟨rfl, hcs⟩
      · rfl
      · rfl
      · exact hloop _ hlit h1

/-- On a literal tree the call `n.add(p, true, h)` returns. -/
theorem add_isSome_literal (re : Regexp) (n : node) (p : Str) (hs : Option (List handlerFunc))
    (hlit : n.allLiteral) : (n.add re p true hs).isSome :=
  addFuel_isSome_literal re hs (p.length + 1) n p hlit (Nat.lt_succ_self _)

/-- C1. Registration makes a route findable: on a tree whose nodes are all
literal, when `n.add(p, true, h)` with a non-empty handler chain `h` returns
`addResultSuccess`, then `lookup(p)` on the tree the call leaves behind returns
found, the chain `h` and no captures. -/
theorem add_success_then_lookup (re : Regexp) (n : node) (p : Str)
    (h : Option (List handlerFunc)) (n1 : node) (hlit : n.allLiteral)
    (hh : 0 < sliceLen h) (hadd : n.add re p true h = some (addResultSuccess, n1)) :
    n1.lookup re p = (true, h, []) :=
  addFuel_success_lookup re h hh (p.length + 1) n p n1 hlit hadd

/-- C1 at `/foo/bar` followed by `/foo/baz`. -/
theorem add_success_then_lookup_witness :
    newNode goRegexp "/foo/bar".toList true (some [1]) =
      some (node.mk "/foo/bar".toList none (some [1]) []) ∧
    (node.mk "/foo/bar".toList none (some [1]) []).allLiteral ∧
    0 < sliceLen (some [2]) ∧
    (node.mk "/foo/bar".toList none (some [1]) []).add goRegexp "/foo/baz".toList true
        (some [2]) = some (addResultSuccess, exampleTwoRoutes) ∧
    exampleTwoRoutes.lookup goRegexp "/foo/baz".toList = (true, some [2], []) :=
  ⟨by rfl, by simp [allLiteral_mk], by decide, by rfl,
    add_success_then_lookup goRegexp (node.mk "/foo/bar".toList none (some [1]) [])
      "/foo/baz".toList (some [2]) exampleTwoRoutes (by simp [allLiteral_mk])
      (by decide) (by rfl)⟩

/-- A call of `add` that answers `addResultConflict` on a literal tree leaves the
node as it was, at any depth of the calls. -/
theorem addFuel_conflict_unchanged (re : Regexp) (h : Option (List handlerFunc)) (fuel : Nat) :
    ∀ (n : node) (p : Str) (n1 : node), n.allLiteral →
      node.addFuel re fuel n p true h = some (addResultConflict, n1) → n1 = n := by
  induction fuel with
  | zero => intro n p n1 _ hadd; simp [node.addFuel] at hadd
  | succ fuel ih =>
    intro n p n1 hlit hadd
    cases n with
    | mk s d h0 cs =>
      obtain ⟨hd, hcs⟩ := (allLiteral_mk s d h0 cs).1 hlit
      subst hd
      have hcd : ∀ c ∈ cs, c.dynamic = none := fun c hc => allLiteral_dynamic c (hcs c hc)
      rcases addFuel_literal_cases re fuel s h0 cs p h _ n1 hcd hadd with
        ⟨-, hr, -⟩ | ⟨-, -, -, hr, -⟩ | ⟨-, -, -, hr, -⟩ | ⟨-, -, -, hr, -⟩ |
        ⟨-, -, -, -, hn⟩ | ⟨-, -, -, -, pre, c, c1, post, e1, e2, e3, -, -⟩ |
        ⟨-, -, -, hr, -⟩
      · exact absurd hr (by decide)
      · exact absurd hr (by decide)
      · exact absurd hr (by decide)
      · exact absurd hr (by decide)
      · exact hn
      · have := ih c _ c1 (hcs c (by rw [e1]; simp)) e3
        rw [e2, this, e1]
      · exact absurd hr (by decide)

/-- C4. A conflicting registration is atomic: on a tree whose nodes are all
literal, when `n.add(p, true, h)` returns `addResultConflict` the tree the call
leaves behind is the tree it was given: no node was split and no text, handler
chain or children list has changed. -/
theorem add_conflict_unchanged (re : Regexp) (n : node) (p : Str)
    (h : Option (List handlerFunc)) (n1 : node) (hlit : n.allLiteral)
    (hadd : n.add re p true h = some (addResultConflict, n1)) : n1 = n :=
  addFuel_conflict_unchanged re h (p.length + 1) n p n1 hlit hadd

/-- C4 at `/foo/bar` registered a second time in the tree that holds `/foo/bar`
and `/foo/baz`. -/
theorem add_conflict_unchanged_witness :
    exampleTwoRoutes.allLiteral ∧
    exampleTwoRoutes.add goRegexp "/foo/bar".toList true (some [3]) =
      some (addResultConflict, exampleTwoRoutes) ∧
    exampleTwoRoutes = exampleTwoRoutes :=
  ⟨by simp [exampleTwoRoutes, allLiteral_mk], by rfl,
    add_conflict_unchanged goRegexp exampleTwoRoutes "/foo/bar".toList (some [3])
      exampleTwoRoutes (by simp [exampleTwoRoutes, allLiteral_mk]) (by rfl)⟩

/-! ## Splitting a literal node -/

theorem lookup_not_found_eq (re : Regexp) (n : node) (q : Str)
    (h : (node.lookup re n q).1 = false) : node.lookup re n q = (false, none, []) := by
  cases n with
  | mk s d h0 cs =>
    rw [node.lookup] at h ⊢
    simp only at h ⊢
    split_ifs at h ⊢
    all_goals simp_all

theorem sliceLen_none : sliceLen (none : Option (List handlerFunc)) = 0 := rfl

theorem split_literal (re : Regexp) (s : Str) (h : Option (List handlerFunc))
    (cs : List node) (c : Str) (hlen : c.length < s.length) :
    node.split re (node.mk s none h cs) c =
      some (node.mk c none none [node.mk (s.drop c.length) none h cs]) := by
  have hpos : 0 < s.length := by omega
  have hle : c.length ≤ s.length := by omega
  simp [node.split, node.static, hpos, hle, newNode_static, node.handlers, node.children,
    node.dynamic]

/-- Lookup below a split literal node: the handler chain and the captures are
those of the node before the split. The handler chain `x` left at the upper
node is not consulted when the path goes on. -/
theorem lookup_split_literal (re : Regexp) (c rem : Str) (h x : Option (List handlerFunc))
    (cs : List node) (q : Str) (hc : c ≠ []) (hrem : rem ≠ []) (hq : q ≠ c) :
    (node.lookup re (node.mk c none x [node.mk rem none h cs]) q).2 =
      (node.lookup re (node.mk (c ++ rem) none h cs) q).2 := by
  rw [lookup_literal re c, lookup_literal re (c ++ rem)]
  by_cases hp : c <+: q
  · obtain ⟨t, rfl⟩ := hp
    have ht : t ≠ [] := by
      intro h0
      apply hq
      rw [h0, List.append_nil]
    have hd : List.drop c.length (c ++ t) = t := List.drop_left _ _
    have hd2 : List.drop (c ++ rem).length (c ++ t) = List.drop rem.length t := by
      rw [List.length_append, ← List.drop_drop, hd]
    have hpp : c ++ rem <+: c ++ t ↔ rem <+: t := List.prefix_append_right_inj c
    simp only [hc, List.prefix_append, not_true_eq_false, or_self, if_false, hd, ht,
      lookupChildren_cons, lookupChildren_nil, List.append_eq_nil, false_and, false_or, hpp,
      hd2]
    rw [lookup_literal re rem]
    by_cases hrt : rem <+: t
    · simp only [hrem, hrt, not_true_eq_false, or_self, if_false]
      by_cases hdr : List.drop rem.length t = []
      · simp only [hdr, if_true]
        by_cases hh : 0 < sliceLen h <;> simp [hh]
      · simp only [hdr, if_false]
        by_cases hh : 0 < sliceLen (lookupChildren re cs (List.drop rem.length t)).1 <;>
          simp [hh, sliceLen_none]
    · simp [hrt, sliceLen_none]
  · have hp2 : ¬ c ++ rem <+: q := fun h2 => hp ((List.prefix_append c rem).trans h2)
    simp [hp, hp2]

/-- C10. Split preserves routes: for a literal node `n` (whatever is below it),
a non-empty proper prefix `c` of `n.static` and any path `q`, `n.split(c)`
returns, and `lookup(q)` on the split node returns the handler chain and the
captures that `lookup(q)` returned on `n`. -/
theorem split_preserves_lookup (re : Regexp) (n : node) (c q : Str)
    (hd : n.dynamic = none) (hc : c ≠ []) (hpre : c <+: n.static) (hne : c ≠ n.static) :
    ∃ n1, n.split re c = some n1 ∧ (n1.lookup re q).2 = (n.lookup re q).2 := by
  cases n with
  | mk s d h cs =>
    simp only [node.dynamic] at hd
    subst hd
    simp only [node.static] at hpre hne
    obtain ⟨rem, rfl⟩ := hpre
    have hrem : rem ≠ [] := by
      intro h0
      apply hne
      rw [h0, List.append_nil]
    have hlen : c.length < (c ++ rem).length := by
      have := List.length_pos.2 hrem
      rw [List.length_append]
      omega
    refine ⟨_, split_literal re (c ++ rem) h cs c hlen, ?_⟩
    rw [List.drop_left]
    by_cases hq : q = c
    · subst hq
      rw [lookup_literal re q, lookup_literal re (q ++ rem)]
      have : ¬ q ++ rem <+: q := by
        intro h2
        have := h2.length_le
        rw [List.length_append] at this
        have := List.length_pos.2 hrem
        omega
      simp [hc, this, sliceLen_none]
    · exact lookup_split_literal re c rem h none cs q hc hrem hq

/-- C10 at `/foo/bar` split at `/foo`, looked up at `/foo/bar`. -/
theorem split_preserves_lookup_witness :
    (node.mk "/foo/bar".toList none (some [1]) []).dynamic = none ∧
    "/foo".toList ≠ [] ∧ "/foo".toList <+: (node.mk "/foo/bar".toList none (some [1]) []).static ∧
    "/foo".toList ≠ (node.mk "/foo/bar".toList none (some [1]) []).static ∧
    ∃ n1, (node.mk "/foo/bar".toList none (some [1]) []).split goRegexp "/foo".toList = some n1 ∧
      (n1.lookup goRegexp "/foo/bar".toList).2 =
        ((node.mk "/foo/bar".toList none (some [1]) []).lookup goRegexp "/foo/bar".toList).2 :=
  ⟨rfl, by decide, by decide, by decide,
    split_preserves_lookup goRegexp (node.mk "/foo/bar".toList none (some [1]) [])
      "/foo".toList "/foo/bar".toList rfl (by decide) (by decide) (by decide)⟩

/-- C8. Split correctness for two routes: for literal paths `p` and `q` whose
longest common prefix `c` is non-empty and differs from both, and non-empty
handler chains `hp` and `hq`, `newNode(p, true, hp)` returns a node `n` and the
call `add(q, true, hq)` on it returns `addResultSuccess`; afterwards
`lookup(p)` returns `hp`, `lookup(q)` returns `hq`, `lookup(c)` matches without
a handler chain, and no prefix of `c` yields a handler chain. -/
theorem split_two_routes (re : Regexp) (p q : Str) (hp hq : Option (List handlerFunc))
    (hc : lcp p q ≠ []) (hcp : lcp p q ≠ p) (hcq : lcp p q ≠ q)
    (hhp : 0 < sliceLen hp) (hhq : 0 < sliceLen hq) :
    ∃ n n1, newNode re p true hp = some n ∧
      n.add re q true hq = some (addResultSuccess, n1) ∧
      n1.lookup re p = (true, hp, []) ∧ n1.lookup re q = (true, hq, []) ∧
      n1.lookup re (lcp p q) = (true, none, []) ∧
      ∀ x, x <+: lcp p q → (n1.lookup re x).2.1 = none := by
  have hlit : (node.mk p none hp []).allLiteral := by
    rw [allLiteral_mk]; simp
  have hsome := add_isSome_literal re (node.mk p none hp []) q hq hlit
  obtain ⟨⟨r, n1⟩, hadd⟩ := Option.isSome_iff_exists.1 hsome
  have hadd2 := hadd
  have hsplit := lcp_split p q
  rcases addFuel_literal_cases re q.length p hp [] q hq r n1 (by simp) hadd2 with
    ⟨h0, -, -⟩ | ⟨-, -, hpq, -, -⟩ | ⟨-, hlt, hrest, hr, hn⟩ | ⟨-, hpq, -, -, -⟩ |
    ⟨-, hpq, -, -, -⟩ | ⟨-, hpre, -, -, -⟩ | ⟨-, hpre, -, -, -⟩
  · exact absurd h0 hc
  · exact absurd hpq.symm hcq
  · subst hr
    refine ⟨node.mk p none hp [], n1, newNode_static re p hp, hadd, ?_,
      addFuel_success_lookup re hq hhq (q.length + 1) _ q n1 hlit hadd, ?_, ?_⟩
    · have hrem : p.drop (lcp p q).length ≠ [] := by
        intro h0
        apply hcp
        have := hsplit.1
        rw [h0, List.append_nil] at this
        exact this.symm
      rw [hn, lookup_literal]
      simp only [hc, lcp_prefix_left, not_true_eq_false, or_self, if_false, hrem,
        lookupChildren_cons, lookup_leaf_self re _ hp [] hrem hhp, if_true, hhp]
    · rw [hn, lookup_literal]
      simp [hc, sliceLen_none]
    · intro x hx
      rw [hn, lookup_literal]
      by_cases hxc : lcp p q <+: x
      · have : x = lcp p q :=
          List.IsPrefix.eq_of_length hx (Nat.le_antisymm hx.length_le hxc.length_le)
        rw [this]
        simp [hc, sliceLen_none]
      · simp [hxc]
  · subst hpq
    exact absurd (lcp_of_isPrefix (List.prefix_refl q)) hcp
  · subst hpq
    exact absurd (lcp_of_isPrefix (List.prefix_refl q)) hcp
  · exact absurd (lcp_of_isPrefix hpre) hcp
  · exact absurd (lcp_of_isPrefix hpre) hcp

/-- C8 at `p = /foo/bar`, `q = /foo/baz`, whose common prefix is `/foo/ba`; the
path `/foo` is a prefix of it. -/
theorem split_two_routes_witness :
    lcp "/foo/bar".toList "/foo/baz".toList = "/foo/ba".toList ∧
    "/foo".toList <+: lcp "/foo/bar".toList "/foo/baz".toList ∧
    ∃ n n1, newNode goRegexp "/foo/bar".toList true (some [1]) = some n ∧
      n.add goRegexp "/foo/baz".toList true (some [2]) = some (addResultSuccess, n1) ∧
      n1.lookup goRegexp "/foo/bar".toList = (true, some [1], []) ∧
      n1.lookup goRegexp "/foo/baz".toList = (true, some [2], []) ∧
      n1.lookup goRegexp (lcp "/foo/bar".toList "/foo/baz".toList) = (true, none, []) ∧
      ∀ x, x <+: lcp "/foo/bar".toList "/foo/baz".toList →
        (n1.lookup goRegexp x).2.1 = none :=
  ⟨by decide, by decide,
    split_two_routes goRegexp "/foo/bar".toList "/foo/baz".toList (some [1]) (some [2])
      (by decide) (by decide) (by decide) (by decide) (by decide)⟩

/-! ## Lookup at any node -/

/-- The body of `lookup`, for a literal or a dynamic node. -/
theorem lookup_unfold (re : Regexp) (n : node) (path : Str) :
    n.lookup re path =
      if (n.lookupCommonPrefix re path).1 = [] then (false, none, [])
      else if path.drop (n.lookupCommonPrefix re path).1.length = [] then
        (if 0 < sliceLen n.handlers then (true, n.handlers, (n.lookupCommonPrefix re path).2)
        else (true, none, []))
      else if 0 < sliceLen (lookupChildren re n.children
          (path.drop (n.lookupCommonPrefix re path).1.length)).1 then
        (true, (lookupChildren re n.children
            (path.drop (n.lookupCommonPrefix re path).1.length)).1,
          (n.lookupCommonPrefix re path).2 ++ (lookupChildren re n.children
            (path.drop (n.lookupCommonPrefix re path).1.length)).2)
      else (true, none, []) := by
  cases n with
  | mk s d h cs =>
    rw [node.lookup]
    simp only [List.length_eq_zero, node.handlers, node.children]

/-- The loop of `lookupChildren` stops at the first child whose lookup reports a
match and returns what that child returned; it returns nothing when no child
matches. -/
theorem lookupChildren_cases (re : Regexp) (cs : List node) (q : Str) :
    (∃ pre c post, cs = pre ++ c :: post ∧ (∀ x ∈ pre, (x.lookup re q).1 = false) ∧
      (c.lookup re q).1 = true ∧ lookupChildren re cs q = (c.lookup re q).2) ∨
    ((∀ x ∈ cs, (x.lookup re q).1 = false) ∧ lookupChildren re cs q = (none, [])) := by
  induction cs with
  | nil => right; simp [lookupChildren_nil]
  | cons c cs ih =>
    by_cases hc : (c.lookup re q).1 = true
    · left
      exact ⟨[], c, cs, rfl, by simp, hc, by rw [lookupChildren_cons, if_pos hc]⟩
    · have hc0 : (c.lookup re q).1 = false := by simpa using hc
      rcases ih with ⟨pre, d, post, e1, e2, e3, e4⟩ | ⟨e1, e2⟩
      · left
        refine ⟨c :: pre, d, post, by rw [e1]; rfl, ?_, e3, ?_⟩
        · intro x hx
          rcases List.mem_cons.1 hx with rfl | hx
          · exact hc0
          · exact e2 x hx
        · rw [lookupChildren_cons, if_neg hc, e4]
      · right
        refine ⟨?_, ?_⟩
        · intro x hx
          rcases List.mem_cons.1 hx with rfl | hx
          · exact hc0
          · exact e1 x hx
        · rw [lookupChildren_cons, if_neg hc, e2]

/-- C9. Capture ordering: when `lookup` yields a handler chain through a child
(the remainder after the node's own match is not empty), the child that
supplied it is the first child, in stored order, whose lookup of the remainder
matches, and the captures returned are the node's own captures followed by the
captures that child returned. -/
theorem lookup_captures_order (re : Regexp) (n : node) (path : Str)
    (hrest : path.drop (n.lookupCommonPrefix re path).1.length ≠ [])
    (hok : 0 < sliceLen (n.lookup re path).2.1) :
    ∃ pre c post, n.children = pre ++ c :: post ∧
      (∀ x ∈ pre, (x.lookup re (path.drop (n.lookupCommonPrefix re path).1.length)).1 = false) ∧
      (c.lookup re (path.drop (n.lookupCommonPrefix re path).1.length)).1 = true ∧
      n.lookup re path =
        (true, (c.lookup re (path.drop (n.lookupCommonPrefix re path).1.length)).2.1,
          (n.lookupCommonPrefix re path).2 ++
            (c.lookup re (path.drop (n.lookupCommonPrefix re path).1.length)).2.2) := by
  rw [lookup_unfold] at hok ⊢
  by_cases h0 : (n.lookupCommonPrefix re path).1 = []
  · simp [h0, sliceLen_none] at hok
  · simp only [h0, if_false, hrest] at hok ⊢
    by_cases hl : 0 < sliceLen (lookupChildren re n.children
        (path.drop (n.lookupCommonPrefix re path).1.length)).1
    · simp only [hl, if_true]
      rcases lookupChildren_cases re n.children
          (path.drop (n.lookupCommonPrefix re path).1.length) with
        ⟨pre, c, post, e1, e2, e3, e4⟩ | ⟨-, e2⟩
      · exact ⟨pre, c, post, e1, e2, e3, by rw [e4]⟩
      · rw [e2] at hl
        simp [sliceLen_none] at hl
    · simp [hl, sliceLen_none] at hok

/-- C9 on a chain of two dynamic nodes: `[a-z]+/` above `[0-9]+`, path `ab/12`. -/
theorem lookup_captures_order_witness :
    "ab/12".toList.drop (exampleChain.lookupCommonPrefix goRegexp "ab/12".toList).1.length ≠ [] ∧
    0 < sliceLen (exampleChain.lookup goRegexp "ab/12".toList).2.1 ∧
    exampleChain.lookup goRegexp "ab/12".toList =
      (true, some [1], ["ab/".toList, "12".toList]) ∧
    ∃ pre c post, exampleChain.children = pre ++ c :: post ∧
      (∀ x ∈ pre, (x.lookup goRegexp ("ab/12".toList.drop
        (exampleChain.lookupCommonPrefix goRegexp "ab/12".toList).1.length)).1 = false) ∧
      (c.lookup goRegexp ("ab/12".toList.drop
        (exampleChain.lookupCommonPrefix goRegexp "ab/12".toList).1.length)).1 = true ∧
      exampleChain.lookup goRegexp "ab/12".toList =
        (true, (c.lookup goRegexp ("ab/12".toList.drop
          (exampleChain.lookupCommonPrefix goRegexp "ab/12".toList).1.length)).2.1,
          (exampleChain.lookupCommonPrefix goRegexp "ab/12".toList).2 ++
            (c.lookup goRegexp ("ab/12".toList.drop
              (exampleChain.lookupCommonPrefix goRegexp "ab/12".toList).1.length)).2.2) :=
  ⟨by decide, by decide, by rfl,
    lookup_captures_order goRegexp exampleChain "ab/12".toList (by decide) (by decide)⟩

/-- C7, as the code has it. `lookupChildren` returns what the first child, in
stored order, whose lookup reports a match returned, whether or not that child
yielded a handler chain; children after it are not tried. It returns no
handlers and no captures when no child matches. -/
theorem lookupChildren_first_found (re : Regexp) (cs : List node) (q : Str) :
    (∃ pre c post, cs = pre ++ c :: post ∧ (∀ x ∈ pre, (x.lookup re q).1 = false) ∧
      (c.lookup re q).1 = true ∧ lookupChildren re cs q = (c.lookup re q).2) ∨
    ((∀ x ∈ cs, (x.lookup re q).1 = false) ∧ lookupChildren re cs q = (none, [])) :=
  lookupChildren_cases re cs q

/-- C7 fails as stated. After registering `/[a-z]+/x`, `/[a-z]+/y` and
`/b[a-z]+/z`, the children of the root for the remainder `bc/z` are the node
`[a-z]+/`, which matches `bc/` and finds nothing for `z` below it, and the node
`b[a-z]+/z`, whose lookup yields the handler chain `[3]`. `lookupChildren` stops
at the first and returns no handlers. -/
theorem lookupChildren_structural_match_stops :
    ((newNode goRegexp "/[a-z]+/x".toList false (some [1])).bind
      (fun n => n.add goRegexp "/[a-z]+/y".toList false (some [2]))).bind
      (fun r => r.2.add goRegexp "/b[a-z]+/z".toList false (some [3])) =
      some (addResultSuccess, exampleShadow) ∧
    exampleShadow.children.map (fun c => c.lookup goRegexp "bc/z".toList) =
      [(true, none, []), (true, some [3], ["bc/z".toList])] ∧
    lookupChildren goRegexp exampleShadow.children "bc/z".toList = (none, []) ∧
    exampleShadow.lookup goRegexp "/bc/z".toList = (true, none, []) := by
  refine ⟨by rfl, by rfl, by rfl, by rfl⟩

/-! ## Invariants of the trees built by `add` -/

theorem branching_mk (s : Str) (d : Option Str) (h : Option (List handlerFunc))
    (cs : List node) :
    (node.mk s d h cs).branching ↔ branchOk cs ∧ ∀ c ∈ cs, c.branching := by
  unfold node.branching
  rw [node.all_mk]
  simp [node.children]

theorem chainsOk_mk (s : Str) (d : Option Str) (h : Option (List handlerFunc))
    (cs : List node) :
    (node.mk s d h cs).chainsOk ↔ h ≠ some [] ∧ ∀ c ∈ cs, c.chainsOk := by
  unfold node.chainsOk
  rw [node.all_mk]
  simp [node.handlers]

theorem head?_eq_of_isPrefix {a b : Str} (ha : a ≠ []) (h : a <+: b) : a.head? = b.head? := by
  obtain ⟨t, rfl⟩ := h
  cases a with
  | nil => exact absurd rfl ha
  | cons x xs => rfl

theorem head?_ne_of_lcp_nil {a b : Str} (ha : a ≠ []) (hb : b ≠ []) (h : lcp a b = []) :
    a.head? ≠ b.head? := by
  rcases (lcp_eq_nil_iff a b).1 h with h1 | h1 | h1
  · exact absurd h1 ha
  · exact absurd h1 hb
  · exact h1

theorem lcp_nil_of_head?_ne {a b : Str} (h : a.head? ≠ b.head?) : lcp a b = [] :=
  (lcp_eq_nil_iff a b).2 (Or.inr (Or.inr h))

theorem head?_eq_of_lcp_ne_nil {a b : Str} (h : lcp a b ≠ []) : a.head? = b.head? := by
  by_contra hne
  exact h (lcp_nil_of_head?_ne hne)

theorem branchOk_replace (pre post : List node) (c c1 : node)
    (h : branchOk (pre ++ c :: post)) (h1 : c1.static ≠ [])
    (h2 : c1.static.head? = c.static.head?) : branchOk (pre ++ c1 :: post) := by
  obtain ⟨hne, hpw⟩ := h
  constructor
  · intro x hx
    rcases List.mem_append.1 hx with hx | hx
    · exact hne x (List.mem_append.2 (Or.inl hx))
    · rcases List.mem_cons.1 hx with rfl | hx
      · exact h1
      · exact hne x (List.mem_append.2 (Or.inr (List.mem_cons_of_mem _ hx)))
  · rw [List.pairwise_append] at hpw ⊢
    obtain ⟨p1, p2, p3⟩ := hpw
    rw [List.pairwise_cons] at p2 ⊢
    refine ⟨p1, ⟨?_, p2.2⟩, ?_⟩
    · intro x hx
      rw [h2]
      exact p2.1 x hx
    · intro a ha b hb
      rcases List.mem_cons.1 hb with rfl | hb
      · rw [h2]
        exact p3 a ha c (List.mem_cons_self _ _)
      · exact p3 a ha b (List.mem_cons_of_mem _ hb)

theorem branchOk_append_new (cs : List node) (c : node) (h : branchOk cs)
    (h1 : c.static ≠ []) (h2 : ∀ x ∈ cs, x.static.head? ≠ c.static.head?) :
    branchOk (cs ++ [c]) := by
  obtain ⟨hne, hpw⟩ := h
  constructor
  · intro x hx
    rcases List.mem_append.1 hx with hx | hx
    · exact hne x hx
    · rw [List.mem_singleton] at hx
      rw [hx]
      exact h1
  · rw [List.pairwise_append]
    refine ⟨hpw, List.pairwise_singleton _ _, ?_⟩
    intro a ha b hb
    rw [List.mem_singleton] at hb
    rw [hb]
    exact h2 a ha

/-- Among children that begin with distinct characters, those after a child
that shares a prefix with the path share none with it. -/
theorem branchOk_post_lcp_nil (pre post : List node) (c : node) (q : Str)
    (h : branchOk (pre ++ c :: post)) (hc : lcp c.static q ≠ []) :
    ∀ x ∈ post, lcp x.static q = [] := by
  intro x hx
  apply lcp_nil_of_head?_ne
  have hpw := h.2
  rw [List.pairwise_append, List.pairwise_cons] at hpw
  have := hpw.2.1.1 x hx
  rw [head?_eq_of_lcp_ne_nil hc] at this
  exact fun e => this e.symm

/-- `add` with a literal path keeps a tree literal, keeps the children of every
node apart by their first characters, and adds no empty handler chain; the
text of a node that shared a prefix with the path becomes a non-empty prefix of
what it was. -/
theorem addFuel_preserves (re : Regexp) (hs : Option (List handlerFunc)) (fuel : Nat) :
    ∀ (n : node) (p : Str) (r : Nat) (n1 : node),
      n.allLiteral → n.branching →
      node.addFuel re fuel n p true hs = some (r, n1) →
      n1.allLiteral ∧ n1.branching ∧ (hs ≠ some [] → n.chainsOk → n1.chainsOk) ∧
        (r ≠ addResultNoCommonPrefix → n1.static ≠ [] ∧ n1.static <+: n.static) := by
  induction fuel with
  | zero => intro n p r n1 _ _ hadd; simp [node.addFuel] at hadd
  | succ fuel ih =>
    intro n p r n1 hlit hbr hadd
    cases n with
    | mk s d h0 cs =>
      obtain ⟨hd, hcs⟩ := (allLiteral_mk s d h0 cs).1 hlit
      subst hd
      obtain ⟨hbo, hbcs⟩ := (branching_mk s none h0 cs).1 hbr
      have hcd : ∀ c ∈ cs, c.dynamic = none := fun c hc => allLiteral_dynamic c (hcs c hc)
      have hsplit := lcp_split s p
      have hremne : (lcp s p).length < s.length → s.drop (lcp s p).length ≠ [] := by
        intro hlt h0
        have := congrArg List.length h0
        rw [List.length_drop, List.length_nil] at this
        omega
      rcases addFuel_literal_cases re fuel s h0 cs p hs r n1 hcd hadd with
        ⟨-, hr, rfl⟩ | ⟨h1, hlt, hp, -, rfl⟩ | ⟨h1, hlt, hc, -, rfl⟩ | ⟨h1, hp, -, -, rfl⟩ |
        ⟨h1, -, -, -, rfl⟩ | ⟨h1, hpre, hc, hne, pre, c, c1, post, e1, rfl, e3, e4, e5⟩ |
        ⟨h1, hpre, hc, -, hall, rfl⟩
      · exact ⟨hlit, hbr, fun _ h => h, fun h => absurd hr h⟩
      · have hrem : s.drop p.length ≠ [] := by
          have := hremne hlt
          rwa [← hp] at this
        refine ⟨?_, ?_, ?_, ?_⟩
        · rw [allLiteral_mk]
          refine ⟨rfl, ?_⟩
          intro c hc
          rw [List.mem_singleton] at hc
          rw [hc, allLiteral_mk]
          exact ⟨rfl, hcs⟩
        · rw [branching_mk]
          refine ⟨⟨?_, List.pairwise_singleton _ _⟩, ?_⟩
          · intro c hc
            rw [List.mem_singleton] at hc
            rw [hc]
            exact hrem
          · intro c hc
            rw [List.mem_singleton] at hc
            rw [hc, branching_mk]
            exact ⟨hbo, hbcs⟩
        · intro hhs hch
          obtain ⟨hh0, hccs⟩ := (chainsOk_mk s none h0 cs).1 hch
          rw [chainsOk_mk]
          refine ⟨hhs, ?_⟩
          intro c hc
          rw [List.mem_singleton] at hc
          rw [hc, chainsOk_mk]
          exact ⟨hh0, hccs⟩
        · intro _
          refine ⟨by rw [hp]; exact h1, ?_⟩
          simp only [node.static]
          rw [hp]
          exact lcp_prefix_left s p
      · have hrem := hremne hlt
        refine ⟨?_, ?_, ?_, ?_⟩
        · rw [allLiteral_mk]
          refine ⟨rfl, ?_⟩
          intro c hc
          rcases List.mem_cons.1 hc with rfl | hc
          · rw [allLiteral_mk]
            exact ⟨rfl, hcs⟩
          · rw [List.mem_singleton] at hc
            rw [hc, allLiteral_mk]
            simp
        · rw [branching_mk]
          refine ⟨⟨?_, ?_⟩, ?_⟩
          · intro c hm
            rcases List.mem_cons.1 hm with rfl | hm
            · exact hrem
            · rw [List.mem_singleton] at hm
              rw [hm]
              exact hc
          · rw [List.pairwise_cons]
            refine ⟨?_, List.pairwise_singleton _ _⟩
            intro b hb
            rw [List.mem_singleton] at hb
            rw [hb]
            exact head?_ne_of_lcp_nil hrem hc hsplit.2.2
          · intro c hc
            rcases List.mem_cons.1 hc with rfl | hc
            · rw [branching_mk]
              exact ⟨hbo, hbcs⟩
            · rw [List.mem_singleton] at hc
              rw [hc, branching_mk]
              simp [branchOk]
        · intro hhs hch
          obtain ⟨hh0, hccs⟩ := (chainsOk_mk s none h0 cs).1 hch
          rw [chainsOk_mk]
          refine ⟨by simp, ?_⟩
          intro c hc
          rcases List.mem_cons.1 hc with rfl | hc
          · rw [chainsOk_mk]
            exact ⟨hh0, hccs⟩
          · rw [List.mem_singleton] at hc
            rw [hc, chainsOk_mk]
            simp [hhs]
        · intro _
          exact ⟨h1, lcp_prefix_left s p⟩
      · refine ⟨?_, ?_, ?_, fun _ => ⟨h1, List.prefix_refl _⟩⟩
        · rw [allLiteral_mk]; exact ⟨rfl, hcs⟩
        · rw [branching_mk]; exact ⟨hbo, hbcs⟩
        · intro hhs hch
          obtain ⟨hh0, hccs⟩ := (chainsOk_mk s none h0 cs).1 hch
          rw [chainsOk_mk]; exact ⟨hhs, hccs⟩
      · exact ⟨hlit, hbr, fun _ h => h, fun _ => ⟨h1, List.prefix_refl _⟩⟩
      · have hcm : c ∈ cs := by rw [e1]; simp
        obtain ⟨i1, i2, i3, i4⟩ := ih c _ r c1 (hcs c hcm) (hbcs c hcm) e3
        obtain ⟨j1, j2⟩ := i4 hne
        have hmem : ∀ x, x ∈ pre ++ c1 :: post → x = c1 ∨ x ∈ cs := by
          intro x hx
          rcases List.mem_append.1 hx with hx | hx
          · right; rw [e1]; exact List.mem_append.2 (Or.inl hx)
          · rcases List.mem_cons.1 hx with rfl | hx
            · left; rfl
            · right; rw [e1]
              exact List.mem_append.2 (Or.inr (List.mem_cons_of_mem _ hx))
        refine ⟨?_, ?_, ?_, fun _ => ⟨h1, List.prefix_refl _⟩⟩
        · rw [allLiteral_mk]
          refine ⟨rfl, ?_⟩
          intro x hx
          rcases hmem x hx with rfl | hx
          · exact i1
          · exact hcs x hx
        · rw [branching_mk]
          refine ⟨?_, ?_⟩
          · rw [e1] at hbo
            exact branchOk_replace pre post c c1 hbo j1 (head?_eq_of_isPrefix j1 j2)
          · intro x hx
            rcases hmem x hx with rfl | hx
            · exact i2
            · exact hbcs x hx
        · intro hhs hch
          obtain ⟨hh0, hccs⟩ := (chainsOk_mk s none h0 cs).1 hch
          rw [chainsOk_mk]
          refine ⟨hh0, ?_⟩
          intro x hx
          rcases hmem x hx with rfl | hx
          · exact i3 hhs (hccs c hcm)
          · exact hccs x hx
      · have hmem : ∀ x, x ∈ cs ++ [node.mk (p.drop s.length) none hs []] →
            x = node.mk (p.drop s.length) none hs [] ∨ x ∈ cs := by
          intro x hx
          rcases List.mem_append.1 hx with hx | hx
          · right; exact hx
          · left; exact List.mem_singleton.1 hx
        refine ⟨?_, ?_, ?_, fun _ => ⟨h1, List.prefix_refl _⟩⟩
        · rw [allLiteral_mk]
          refine ⟨rfl, ?_⟩
          intro x hx
          rcases hmem x hx with rfl | hx
          · rw [allLiteral_mk]; simp
          · exact hcs x hx
        · rw [branching_mk]
          refine ⟨?_, ?_⟩
          · apply branchOk_append_new cs (node.mk (p.drop s.length) none hs []) hbo hc
            intro x hx
            exact head?_ne_of_lcp_nil (hbo.1 x hx) hc (hall x hx)
          · intro x hx
            rcases hmem x hx with rfl | hx
            · rw [branching_mk]; simp [branchOk]
            · exact hbcs x hx
        · intro hhs hch
          obtain ⟨hh0, hccs⟩ := (chainsOk_mk s none h0 cs).1 hch
          rw [chainsOk_mk]
          refine ⟨hh0, ?_⟩
          intro x hx
          rcases hmem x hx with rfl | hx
          · rw [chainsOk_mk]; simp [hhs]
          · exact hccs x hx

/-- The trees built from `newNode(p0, true, h0)` by `add` with literal paths are
literal and keep the children of every node apart by their first characters;
they hold no empty handler chain unless `h0` is one. -/
theorem built_invariants (re : Regexp) (p0 : Str) (h0 : Option (List handlerFunc)) (n : node)
    (hb : Built re p0 h0 n) :
    n.allLiteral ∧ n.branching ∧ (h0 ≠ some [] → n.chainsOk) := by
  induction hb with
  | root hn =>
    rw [newNode_static] at hn
    simp only [Option.some.injEq] at hn
    subst hn
    rw [allLiteral_mk, branching_mk, chainsOk_mk]
    simp [branchOk]
  | add p h _ hh hadd ih =>
    obtain ⟨i1, i2, i3⟩ := ih
    have hhs : h ≠ some [] := ((sliceLen_pos_iff h).1 hh).2
    obtain ⟨j1, j2, j3, -⟩ := addFuel_preserves re h _ _ p _ _ i1 i2 hadd
    exact ⟨j1, j2, fun e => j3 hhs (i3 e)⟩

/-! ## Conflicts -/

theorem lookupChildren_at (re : Regexp) (pre post : List node) (c : node) (q : Str)
    (hpre : ∀ x ∈ pre, (x.lookup re q).1 = false)
    (hpost : ∀ x ∈ post, (x.lookup re q).1 = false) :
    lookupChildren re (pre ++ c :: post) q = (c.lookup re q).2 := by
  rw [lookupChildren_append_of_not_found re pre _ q hpre, lookupChildren_cons]
  by_cases hc : (c.lookup re q).1 = true
  · rw [if_pos hc]
  · rw [if_neg hc, lookupChildren_of_not_found re post q hpost,
      lookup_not_found_eq re c q (by simpa using hc)]

theorem not_prefix_of_lcp_lt {s p : Str} (h : (lcp s p).length < s.length) : ¬ s <+: p := by
  intro hp
  have := (lcp_length_eq_iff s p).2 hp
  omega

/-- On a literal tree whose siblings begin with distinct characters and which
holds no empty handler chain, `add` answers `addResultConflict` exactly when
lookup of the path yields a handler chain. -/
theorem addFuel_conflict_iff (re : Regexp) (hs : Option (List handlerFunc)) (fuel : Nat) :
    ∀ (n : node) (p : Str) (r : Nat) (n1 : node),
      n.allLiteral → n.branching → n.chainsOk →
      node.addFuel re fuel n p true hs = some (r, n1) →
      (r = addResultConflict ↔ 0 < sliceLen (n.lookup re p).2.1) := by
  induction fuel with
  | zero => intro n p r n1 _ _ _ hadd; simp [node.addFuel] at hadd
  | succ fuel ih =>
    intro n p r n1 hlit hbr hch hadd
    cases n with
    | mk s d h0 cs =>
      obtain ⟨hd, hcs⟩ := (allLiteral_mk s d h0 cs).1 hlit
      subst hd
      obtain ⟨hbo, hbcs⟩ := (branching_mk s none h0 cs).1 hbr
      obtain ⟨hh0, hccs⟩ := (chainsOk_mk s none h0 cs).1 hch
      have hcd : ∀ c ∈ cs, c.dynamic = none := fun c hc => allLiteral_dynamic c (hcs c hc)
      rcases addFuel_literal_cases re fuel s h0 cs p hs r n1 hcd hadd with
        ⟨h1, hr, -⟩ | ⟨h1, hlt, hp, hr, -⟩ | ⟨h1, hlt, hc, hr, -⟩ | ⟨h1, hp, hn, hr, -⟩ |
        ⟨h1, hp, hn, hr, -⟩ | ⟨h1, hpre, hc, hne, pre, c, c1, post, e1, -, e3, e4, e5⟩ |
        ⟨h1, hpre, hc, hr, hall, -⟩
      · have := lookup_not_found_eq re _ p
          (lookup_not_found_of_lcp re (node.mk s none h0 cs) rfl p h1)
        rw [this, hr]
        simp [sliceLen_none, addResultNoCommonPrefix, addResultConflict]
      · rw [lookup_literal, hr]
        simp [not_prefix_of_lcp_lt hlt, sliceLen_none, addResultSuccess, addResultConflict]
      · rw [lookup_literal, hr]
        simp [not_prefix_of_lcp_lt hlt, sliceLen_none, addResultSuccess, addResultConflict]
      · rw [lookup_literal, hr, hn, hp]
        simp [h1, sliceLen_none, addResultSuccess, addResultConflict]
      · have hpos : 0 < sliceLen h0 := (sliceLen_pos_iff h0).2 ⟨hn, hh0⟩
        rw [lookup_literal, hr, hp]
        simp [h1, hpos]
      · have hcm : c ∈ cs := by rw [e1]; simp
        have hprenf : ∀ x ∈ pre, (x.lookup re (p.drop s.length)).1 = false :=
          fun x hx => lookup_not_found_of_lcp re x (hcd x (by rw [e1]; simp [hx])) _ (e4 x hx)
        have hpostnf : ∀ x ∈ post, (x.lookup re (p.drop s.length)).1 = false := by
          intro x hx
          apply lookup_not_found_of_lcp re x (hcd x (by rw [e1]; simp [hx]))
          rw [e1] at hbo
          exact branchOk_post_lcp_nil pre post c _ hbo e5 x hx
        have hlc := lookupChildren_at re pre post c (p.drop s.length) hprenf hpostnf
        rw [ih c _ r c1 (hcs c hcm) (hbcs c hcm) (hccs c hcm) e3, lookup_literal, e1, hlc]
        simp only [h1, hpre, not_true_eq_false, or_self, if_false, hc]
        by_cases hpos : 0 < sliceLen (c.lookup re (p.drop s.length)).2.1
        · simp [hpos]
        · simp [hpos, sliceLen_none]
      · have hnf : ∀ x ∈ cs, (x.lookup re (p.drop s.length)).1 = false :=
          fun x hx => lookup_not_found_of_lcp re x (hcd x hx) _ (hall x hx)
        rw [lookup_literal, hr, lookupChildren_of_not_found re cs _ hnf]
        simp [h1, hpre, hc, sliceLen_none, addResultSuccess, addResultConflict]

/-- C3. Conflict is raised exactly for duplicates: on a tree built from
`newNode(p0, true, h0)` by `add` calls with literal paths and non-empty handler
chains (`h0` being `nil` or non-empty), a call `n.add(p, true, h)` returns, and
it returns `addResultConflict` if and only if `n.lookup(p)` yields a non-empty
handler chain before the call. This holds for every chain `h`, the non-empty
ones among them. -/
theorem add_conflict_iff_registered (re : Regexp) (p0 : Str) (h0 : Option (List handlerFunc))
    (n : node) (p : Str) (h : Option (List handlerFunc))
    (hh0 : h0 ≠ some []) (hb : Built re p0 h0 n) :
    ∃ r n1, n.add re p true h = some (r, n1) ∧
      (r = addResultConflict ↔ 0 < sliceLen (n.lookup re p).2.1) := by
  obtain ⟨i1, i2, i3⟩ := built_invariants re p0 h0 n hb
  obtain ⟨⟨r, n1⟩, hadd⟩ := Option.isSome_iff_exists.1 (add_isSome_literal re n p h i1)
  exact ⟨r, n1, hadd, addFuel_conflict_iff re h _ n p r n1 i1 i2 (i3 hh0) hadd⟩

/-- C3 on the tree holding `/foo/bar` and `/foo/baz`, at `/foo/bar`. -/
theorem add_conflict_iff_registered_witness :
    (some [1] : Option (List handlerFunc)) ≠ some [] ∧
    Built goRegexp "/foo/bar".toList (some [1]) exampleTwoRoutes ∧
    ∃ r n1, exampleTwoRoutes.add goRegexp "/foo/bar".toList true (some [3]) = some (r, n1) ∧
      (r = addResultConflict ↔
        0 < sliceLen (exampleTwoRoutes.lookup goRegexp "/foo/bar".toList).2.1) :=
  ⟨by decide,
    Built.add "/foo/baz".toList (some [2]) (Built.root rfl) (by decide) (by rfl),
    add_conflict_iff_registered goRegexp "/foo/bar".toList (some [1]) exampleTwoRoutes
      "/foo/bar".toList (some [3]) (by decide)
      (Built.add "/foo/baz".toList (some [2]) (Built.root rfl) (by decide) (by rfl))⟩

/-! ## Other routes are not disturbed -/

theorem lookupChildren_append_congr (re : Regexp) (pre r1 r2 : List node) (q : Str)
    (h : lookupChildren re r1 q = lookupChildren re r2 q) :
    lookupChildren re (pre ++ r1) q = lookupChildren re (pre ++ r2) q := by
  induction pre with
  | nil => exact h
  | cons p pre ih => rw [List.cons_append, List.cons_append, lookupChildren_cons,
      lookupChildren_cons, ih]

/-- Lookup at a literal node for a path other than the node's own text does not
consult the node's handler chain. -/
theorem lookup_literal_handlers_irrelevant (re : Regexp) (s : Str)
    (h x : Option (List handlerFunc)) (cs : List node) (q : Str) (hq : q ≠ s) :
    node.lookup re (node.mk s none x cs) q = node.lookup re (node.mk s none h cs) q := by
  rw [lookup_literal, lookup_literal]
  by_cases hp : s <+: q
  · obtain ⟨t, rfl⟩ := hp
    have ht : t ≠ [] := by
      intro h0
      apply hq
      rw [h0, List.append_nil]
    simp [ht]
  · simp [hp]

/-- A new leaf for the path `p1` yields nothing for any other path. -/
theorem lookupChildren_new_leaf (re : Regexp) (p1 : Str) (hs : Option (List handlerFunc))
    (q : Str) (hq : q ≠ p1) :
    lookupChildren re [node.mk p1 none hs []] q = (none, []) := by
  rw [lookupChildren_cons, lookupChildren_nil, lookup_literal]
  by_cases hp : p1 <+: q
  · obtain ⟨t, rfl⟩ := hp
    have ht : t ≠ [] := by
      intro h0
      apply hq
      rw [h0, List.append_nil]
    by_cases h1 : p1 = []
    · simp [h1]
    · simp [h1, ht, lookupChildren_nil, sliceLen_none]
  · simp [hp]

theorem drop_ne_of_ne {s p q : Str} (hp : s <+: p) (hq : s <+: q) (h : q ≠ p) :
    q.drop s.length ≠ p.drop s.length := by
  obtain ⟨t, rfl⟩ := hp
  obtain ⟨u, rfl⟩ := hq
  rw [List.drop_left, List.drop_left]
  intro e
  apply h
  rw [e]

/-- On a literal tree whose siblings begin with distinct characters, `add` with
the path `p` changes neither the handler chain nor the captures that lookup
returns for any other path. -/
theorem addFuel_frame (re : Regexp) (hs : Option (List handlerFunc)) (_hhs : hs ≠ some [])
    (fuel : Nat) :
    ∀ (n : node) (p : Str) (r : Nat) (n1 : node),
      n.allLiteral → n.branching →
      node.addFuel re fuel n p true hs = some (r, n1) →
      ∀ q, q ≠ p → (n1.lookup re q).2 = (n.lookup re q).2 := by
  induction fuel with
  | zero => intro n p r n1 _ _ hadd; simp [node.addFuel] at hadd
  | succ fuel ih =>
    intro n p r n1 hlit hbr hadd q hq
    cases n with
    | mk s d h0 cs =>
      obtain ⟨hd, hcs⟩ := (allLiteral_mk s d h0 cs).1 hlit
      subst hd
      obtain ⟨hbo, hbcs⟩ := (branching_mk s none h0 cs).1 hbr
      have hcd : ∀ c ∈ cs, c.dynamic = none := fun c hc => allLiteral_dynamic c (hcs c hc)
      have hsplit := lcp_split s p
      have hremne : (lcp s p).length < s.length → s.drop (lcp s p).length ≠ [] := by
        intro hlt h0
        have := congrArg List.length h0
        rw [List.length_drop, List.length_nil] at this
        omega
      rcases addFuel_literal_cases re fuel s h0 cs p hs r n1 hcd hadd with
        ⟨-, -, rfl⟩ | ⟨h1, hlt, hp, -, rfl⟩ | ⟨h1, hlt, hc, -, rfl⟩ | ⟨h1, hp, -, -, rfl⟩ |
        ⟨-, -, -, -, rfl⟩ | ⟨h1, hpre, hc, hne, pre, c, c1, post, e1, rfl, e3, e4, e5⟩ |
        ⟨h1, hpre, hc, -, hall, rfl⟩
      · rfl
      · have hrem : s.drop p.length ≠ [] := by
          have := hremne hlt
          rwa [← hp] at this
        have hsp : s = p ++ s.drop p.length := by
          have := hsplit.1
          rwa [← hp] at this
        have := lookup_split_literal re p (s.drop p.length) h0 hs cs q
          (by rw [hp]; exact h1) hrem hq
        rw [← hsp] at this
        exact this
      · have hrem := hremne hlt
        have hq2 : q.drop (lcp s p).length ≠ p.drop (lcp s p).length ∨ ¬ lcp s p <+: q := by
          by_cases hpq : lcp s p <+: q
          · exact Or.inl (drop_ne_of_ne (lcp_prefix_right s p) hpq hq)
          · exact Or.inr hpq
        have hgoal : (node.lookup re (node.mk (lcp s p) none none
              [node.mk (s.drop (lcp s p).length) none h0 cs,
                node.mk (p.drop (lcp s p).length) none hs []]) q).2 =
            (node.lookup re (node.mk (lcp s p) none none
              [node.mk (s.drop (lcp s p).length) none h0 cs]) q).2 := by
          rw [lookup_literal, lookup_literal re (lcp s p)]
          rcases hq2 with hq2 | hq2
          · have := lookupChildren_append_congr re
              [node.mk (s.drop (lcp s p).length) none h0 cs]
              [node.mk (p.drop (lcp s p).length) none hs []] [] (q.drop (lcp s p).length)
              (by rw [lookupChildren_new_leaf re _ hs _ hq2, lookupChildren_nil])
            simp only [List.singleton_append, List.append_nil] at this
            rw [this]
          · simp [hq2]
        rw [hgoal]
        by_cases hqc : q = lcp s p
        · have hns : ¬ s <+: lcp s p := by
            intro h
            have := h.length_le
            omega
          rw [lookup_literal, lookup_literal, hqc]
          simp [h1, hns, sliceLen_none]
        · have := lookup_split_literal re (lcp s p) (s.drop (lcp s p).length) h0 none cs q
            h1 hrem hqc
          rw [← hsplit.1] at this
          exact this
      · rw [lookup_literal_handlers_irrelevant re s h0 hs cs q (by rw [← hp]; exact hq)]
      · rfl
      · have hcm : c ∈ cs := by rw [e1]; simp
        obtain ⟨-, -, -, i4⟩ := addFuel_preserves re hs fuel c _ r c1 (hcs c hcm)
          (hbcs c hcm) e3
        obtain ⟨j1, j2⟩ := i4 hne
        rw [lookup_literal, lookup_literal re s]
        by_cases hsq : s <+: q
        · have hq2 := drop_ne_of_ne hpre hsq hq
          have hIH := ih c _ r c1 (hcs c hcm) (hbcs c hcm) e3 _ hq2
          have hcong : lookupChildren re (pre ++ c1 :: post) (q.drop s.length) =
              lookupChildren re cs (q.drop s.length) := by
            rw [e1]
            apply lookupChildren_append_congr
            rw [lookupChildren_cons, lookupChildren_cons, hIH]
            by_cases f1 : (c1.lookup re (q.drop s.length)).1 = true
            · by_cases f : (c.lookup re (q.drop s.length)).1 = true
              · rw [if_pos f1, if_pos f]
              · rw [if_pos f1, if_neg f]
                have hc1d : c1.dynamic = none := by
                  obtain ⟨k1, -, -, -⟩ := addFuel_preserves re hs fuel c _ r c1
                    (hcs c hcm) (hbcs c hcm) e3
                  exact allLiteral_dynamic c1 k1
                obtain ⟨-, g2⟩ := (lookup_literal_found re c1 hc1d _).1 f1
                have hcq : lcp c.static (q.drop s.length) ≠ [] := by
                  intro hz
                  have e := head?_eq_of_isPrefix j1 g2
                  have e2 := head?_eq_of_isPrefix j1 j2
                  rw [e2] at e
                  have hcne : c.static ≠ [] := by
                    intro h0
                    rw [h0] at j2
                    exact j1 (List.prefix_nil.1 j2)
                  have hqne : q.drop s.length ≠ [] := by
                    intro h0
                    rw [h0] at g2
                    exact j1 (List.prefix_nil.1 g2)
                  exact head?_ne_of_lcp_nil hcne hqne hz e
                have hpostnf : ∀ x ∈ post, (x.lookup re (q.drop s.length)).1 = false := by
                  intro x hx
                  apply lookup_not_found_of_lcp re x (hcd x (by rw [e1]; simp [hx]))
                  rw [e1] at hbo
                  exact branchOk_post_lcp_nil pre post c _ hbo hcq x hx
                rw [lookupChildren_of_not_found re post _ hpostnf,
                  lookup_not_found_eq re c _ (by simpa using f)]
            · by_cases f : (c.lookup re (q.drop s.length)).1 = true
              · exfalso
                apply f1
                have hc1d : c1.dynamic = none := by
                  obtain ⟨k1, -, -, -⟩ := addFuel_preserves re hs fuel c _ r c1
                    (hcs c hcm) (hbcs c hcm) e3
                  exact allLiteral_dynamic c1 k1
                obtain ⟨-, g2⟩ := (lookup_literal_found re c (hcd c hcm) _).1 f
                exact (lookup_literal_found re c1 hc1d _).2 ⟨j1, j2.trans g2⟩
              · rw [if_neg f1, if_neg f]
          rw [hcong]
        · simp [hsq]
      · rw [lookup_literal, lookup_literal re s]
        by_cases hsq : s <+: q
        · have hq2 := drop_ne_of_ne hpre hsq hq
          have := lookupChildren_append_congr re cs
            [node.mk (p.drop s.length) none hs []] [] (q.drop s.length)
            (by rw [lookupChildren_new_leaf re _ hs _ hq2, lookupChildren_nil])
          rw [List.append_nil] at this
          rw [this]
        · simp [hsq]

/-- C2. Registration does not disturb other routes: on a tree built from
`newNode(p0, true, h0)` by `add` calls with literal paths and non-empty handler
chains, a further call `n.add(p, true, h)` with a non-empty chain returns, and
whatever it returns, for every path `q` other than `p` the handler chain (and
the captures) that `lookup(q)` returns afterwards are those it returned before. -/
theorem add_keeps_other_routes (re : Regexp) (p0 : Str) (h0 : Option (List handlerFunc))
    (n : node) (p : Str) (h : Option (List handlerFunc))
    (hb : Built re p0 h0 n) (hh : 0 < sliceLen h) :
    ∃ r n1, n.add re p true h = some (r, n1) ∧
      ∀ q, q ≠ p → (n1.lookup re q).2 = (n.lookup re q).2 := by
  obtain ⟨i1, i2, -⟩ := built_invariants re p0 h0 n hb
  obtain ⟨⟨r, n1⟩, hadd⟩ := Option.isSome_iff_exists.1 (add_isSome_literal re n p h i1)
  exact ⟨r, n1, hadd,
    addFuel_frame re h ((sliceLen_pos_iff h).1 hh).2 _ n p r n1 i1 i2 hadd⟩

/-- C2 on the tree holding `/foo/bar` and `/foo/baz`, registering `/foo`. -/
theorem add_keeps_other_routes_witness :
    Built goRegexp "/foo/bar".toList (some [1]) exampleTwoRoutes ∧
    0 < sliceLen (some [3]) ∧
    ∃ r n1, exampleTwoRoutes.add goRegexp "/foo".toList true (some [3]) = some (r, n1) ∧
      ∀ q, q ≠ "/foo".toList →
        (n1.lookup goRegexp q).2 = (exampleTwoRoutes.lookup goRegexp q).2 :=
  ⟨Built.add "/foo/baz".toList (some [2]) (Built.root rfl) (by decide) (by rfl), by decide,
    add_keeps_other_routes goRegexp "/foo/bar".toList (some [1]) exampleTwoRoutes
      "/foo".toList (some [3])
      (Built.add "/foo/baz".toList (some [2]) (Built.root rfl) (by decide) (by rfl)) (by decide)⟩

/-! ## Literal and dynamic siblings -/

/-- C5 on the code. The pattern `/[a-z]+` (handlers `[1]`), the pattern
`/ab[0-9]+` (handlers `[2]`) and the literal path `/ac` (handlers `[3]`) are
registered in this order, each call returning `addResultSuccess`. The pattern
`/[a-z]+` matches the whole of `/ac`, and lookup of `/ac` returns the handlers
`[1]` of the pattern, with the capture `ac`, not the handlers `[3]` of the
literal route. -/
theorem static_precedence_fails :
    ((newNode goRegexp "/[a-z]+".toList false (some [1])).bind
      (fun n => n.add goRegexp "/ab[0-9]+".toList false (some [2]))).bind
      (fun r => r.2.add goRegexp "/ac".toList true (some [3])) =
      some (addResultSuccess, exampleMisordered) ∧
    goRegexp.find "^/[a-z]+".toList "/ac".toList = some "/ac".toList ∧
    exampleMisordered.lookup goRegexp "/ac".toList = (true, some [1], ["ac".toList]) := by
  refine ⟨by rfl, by rfl, by rfl⟩

/-- C6 on the code. After the same three registrations the children of the
root are the dynamic node `[a-z]+` followed by the literal node `a`: the split
of the dynamic node `ab[0-9]+` at `a` made it literal where it stood, behind
its dynamic sibling. -/
theorem static_first_order_fails :
    ((newNode goRegexp "/[a-z]+".toList false (some [1])).bind
      (fun n => n.add goRegexp "/ab[0-9]+".toList false (some [2]))).bind
      (fun r => r.2.add goRegexp "/ac".toList true (some [3])) =
      some (addResultSuccess, exampleMisordered) ∧
    exampleMisordered.children.map (fun c => (c.static, c.dynamic)) =
      [([], some "^[a-z]+".toList), ("a".toList, none)] ∧
    staticsFirst exampleMisordered.children = false := by
  refine ⟨by rfl, by rfl, by rfl⟩

/-! ## Dispatch and logging policy -/

/-- C16. Default body-logging policy: `defaultShouldLogBody` returns true exactly
for the methods `POST`, `PUT` and `DELETE`; in particular it returns false for
`GET`, `HEAD`, `PATCH` and `OPTIONS`. -/
theorem defaultShouldLogBody_iff (m : Str) :
    (defaultShouldLogBody m = true ↔
      m = "POST".toList ∨ m = "PUT".toList ∨ m = "DELETE".toList) ∧
    defaultShouldLogBody "GET".toList = false ∧
    defaultShouldLogBody "HEAD".toList = false ∧
    defaultShouldLogBody "PATCH".toList = false ∧
    defaultShouldLogBody "OPTIONS".toList = false := by
  refine ⟨?_, by decide, by decide, by decide, by decide⟩
  simp only [defaultShouldLogBody, MethodPost, MethodDelete, MethodPut, Bool.or_eq_true,
    beq_iff_eq]
  tauto

/-- C15. Not-found dispatch. When `Lookup` returns an empty handler chain,
`ServeHTTP` makes exactly one call, to the router's not-found handler, and does
not call `Next`; the context it passes has cursor -1 and holds the writer and
the lookup result. With the handler `defaultNotFound` and a writer that is not
`nil`, the writer receives `WriteHeader(404)` and then `Write` of the fixed
body, and nothing else. When the chain is not empty, `ServeHTTP` makes exactly
one call, to `Next`, on a context with cursor -1, and does not call the
not-found handler. -/
theorem serveHTTP_dispatch (r : Router) (Next : Context → Context)
    (rw : Option (List WriterCall)) (req : Request) :
    (sliceLen (r.Lookup req.Method req.Path).1 = 0 →
      r.ServeHTTP Next rw req =
        ([Call.notFound ⟨req, rw, (r.Lookup req.Method req.Path).1,
            (r.Lookup req.Method req.Path).2, -1⟩],
          r.notFound ⟨req, rw, (r.Lookup req.Method req.Path).1,
            (r.Lookup req.Method req.Path).2, -1⟩)) ∧
    (sliceLen (r.Lookup req.Method req.Path).1 = 0 →
      ∀ calls, ((New r.Lookup).ServeHTTP Next (some calls) req).2.ResponseWriter =
        some (calls ++ [WriterCall.WriteHeader 404,
          WriterCall.Write "\x7b\"code\":\"404\",\"message\":\"Not Found.\"\x7d".toList])) ∧
    (0 < sliceLen (r.Lookup req.Method req.Path).1 →
      r.ServeHTTP Next rw req =
        ([Call.Next ⟨req, rw, (r.Lookup req.Method req.Path).1,
            (r.Lookup req.Method req.Path).2, -1⟩],
          Next ⟨req, rw, (r.Lookup req.Method req.Path).1,
            (r.Lookup req.Method req.Path).2, -1⟩)) := by
  refine ⟨?_, ?_, ?_⟩
  · intro h
    simp [Router.ServeHTTP, h]
  · intro h calls
    simp [Router.ServeHTTP, New, h, defaultNotFound, notFoundBody]
  · intro h
    have : ¬ sliceLen (r.Lookup req.Method req.Path).1 = 0 := by omega
    simp [Router.ServeHTTP, this]

/-- C15 with a lookup that finds nothing and a fresh writer, and with a lookup
that finds the chain `[7]`. -/
theorem serveHTTP_dispatch_witness :
    sliceLen ((New (fun _ _ => (none, []))).Lookup "GET".toList "/x".toList).1 = 0 ∧
    ((New (fun _ _ => (none, []))).ServeHTTP id (some [])
        ⟨"GET".toList, "/x".toList⟩).2.ResponseWriter =
      some [WriterCall.WriteHeader 404,
        WriterCall.Write "\x7b\"code\":\"404\",\"message\":\"Not Found.\"\x7d".toList] ∧
    0 < sliceLen ((New (fun _ _ => (some [7], []))).Lookup "GET".toList "/x".toList).1 ∧
    (New (fun _ _ => (some [7], []))).ServeHTTP id (some []) ⟨"GET".toList, "/x".toList⟩ =
      ([Call.Next ⟨⟨"GET".toList, "/x".toList⟩, some [], some [7], [], -1⟩],
        ⟨⟨"GET".toList, "/x".toList⟩, some [], some [7], [], -1⟩) :=
  ⟨rfl,
    (serveHTTP_dispatch (New (fun _ _ => (none, []))) id (some [])
      ⟨"GET".toList, "/x".toList⟩).2.1 rfl [],
    by decide,
    (serveHTTP_dispatch (New (fun _ _ => (some [7], []))) id (some [])
      ⟨"GET".toList, "/x".toList⟩).2.2 (by decide)⟩

/-! ## Inserting a strict prefix, and placing a new child -/

theorem lcp_of_isPrefix_right {a b : Str} (h : b <+: a) : lcp a b = b := by
  induction b generalizing a with
  | nil => exact lcp_nil_right a
  | cons y ys ih =>
    cases a with
    | nil => simp at h
    | cons x xs =>
      rw [List.cons_prefix_cons] at h
      obtain ⟨rfl, h⟩ := h
      simp [lcp_cons, ih h]

/-- C12. Strict-prefix insertion: on a literal node with text `t`, handler chain
`h1` and children `cs`, `add(p, true, h2)` for a non-empty strict prefix `p` of
`t` returns `addResultSuccess` and leaves the node with `static = p`, handlers
`h2` and one child, which holds the rest of `t`, the chain `h1` and the
children `cs`. This holds for every chain `h2`, the non-empty ones among them. -/
theorem add_strict_prefix (re : Regexp) (t : Str) (h1 : Option (List handlerFunc))
    (cs : List node) (p : Str) (h2 : Option (List handlerFunc))
    (hp : p ≠ []) (hpre : p <+: t) (hne : p ≠ t) :
    (node.mk t none h1 cs).add re p true h2 =
      some (addResultSuccess, node.mk p none h2 [node.mk (t.drop p.length) none h1 cs]) := by
  have hl : lcp t p = p := lcp_of_isPrefix_right hpre
  have hlen : p.length < t.length := by
    rcases Nat.lt_or_ge p.length t.length with h | h
    · exact h
    · exact absurd (List.IsPrefix.eq_of_length hpre (Nat.le_antisymm hpre.length_le h)) hne
  unfold node.add
  rw [addFuel_literal, hl]
  simp [hp, hlen]

/-- C12 at the node `/foo/bar` with handlers `[1]`, registering `/foo`. -/
theorem add_strict_prefix_witness :
    "/foo".toList ≠ [] ∧ "/foo".toList <+: "/foo/bar".toList ∧
    "/foo".toList ≠ "/foo/bar".toList ∧
    (node.mk "/foo/bar".toList none (some [1]) []).add goRegexp "/foo".toList true (some [2]) =
      some (addResultSuccess, node.mk "/foo".toList none (some [2])
        [node.mk ("/foo/bar".toList.drop "/foo".toList.length) none (some [1]) []]) :=
  ⟨by decide, by decide, by decide,
    add_strict_prefix goRegexp "/foo/bar".toList (some [1]) [] "/foo".toList (some [2])
      (by decide) (by decide) (by decide)⟩

theorem staticRun_append (ss ds : List node) (hss : ∀ c ∈ ss, c.static ≠ [])
    (hds : ∀ c ∈ ds, c.static = []) : staticRun (ss ++ ds) = ss.length := by
  induction ss with
  | nil =>
    cases ds with
    | nil => rfl
    | cons d ds => simp [staticRun, hds d (List.mem_cons_self _ _)]
  | cons s ss ih =>
    have h1 : 0 < s.static.length := List.length_pos.2 (hss s (List.mem_cons_self _ _))
    simp [staticRun, h1, ih (fun c hc => hss c (List.mem_cons_of_mem _ hc))]

theorem lastDynamic_sorted (ss ds : List node)
    (hss : ∀ c ∈ ss, c.static ≠ [] ∧ c.dynamic = none)
    (hds : ∀ c ∈ ds, c.static = [] ∧ c.dynamic ≠ none) :
    ((ss ++ ds).getLast?.bind node.dynamic).isSome = true ↔ ds ≠ [] := by
  by_cases hd : ds = []
  · subst hd
    rw [List.append_nil]
    cases hl : ss.getLast? with
    | none => simp
    | some c => simp [(hss c (List.mem_of_getLast?_eq_some hl)).2]
  · rw [List.getLast?_append_of_ne_nil ss hd]
    cases hl : ds.getLast? with
    | none => exact absurd (List.getLast?_eq_none_iff.1 hl) hd
    | some c =>
      have := (hds c (List.mem_of_getLast?_eq_some hl)).2
      simp [hd, Option.isSome_iff_ne_none, this]

/-- Where `addToChildren` puts a new child among children that are literal
first and dynamic after. -/
theorem insertChild_sorted (ss ds : List node) (child : node)
    (hss : ∀ c ∈ ss, c.static ≠ [] ∧ c.dynamic = none)
    (hds : ∀ c ∈ ds, c.static = [] ∧ c.dynamic ≠ none) :
    (child.static ≠ [] → insertChild (ss ++ ds) child = ss ++ child :: ds) ∧
    (child.static = [] → insertChild (ss ++ ds) child = ss ++ ds ++ [child]) := by
  have hlast := lastDynamic_sorted ss ds hss hds
  constructor
  · intro hc
    have hcpos : 0 < child.static.length := List.length_pos.2 hc
    unfold insertChild
    by_cases hd : ds = []
    · have hfalse : ¬ ((ss ++ ds).getLast?.bind node.dynamic).isSome = true :=
        fun h => (hlast.1 h) hd
      rw [if_neg (fun h => hfalse h.2.2), hd, List.append_nil]
    · have hrun := staticRun_append ss ds (fun c hc => (hss c hc).1)
        (fun c hc => (hds c hc).1)
      have hpos : 0 < (ss ++ ds).length := by
        rw [List.length_append]
        have := List.length_pos.2 hd
        omega
      rw [if_pos ⟨hpos, hcpos, hlast.2 hd⟩, hrun, List.take_left, List.drop_left]
  · intro hc
    unfold insertChild
    simp [hc]

/-- What `newNode` returns, when it returns. -/
theorem newNode_cases (re : Regexp) (path : Str) (static : Bool)
    (h : Option (List handlerFunc)) (m : node) (hm : newNode re path static h = some m) :
    m = node.mk path none h [] ∨
      (static = false ∧ re.compiles path = true ∧ re.compiles ('^' :: path) = true ∧
        m = node.mk [] (some ('^' :: path)) h []) := by
  unfold newNode at hm
  split_ifs at hm with h1 h2 h3 h4
  · left; simpa using hm.symm
  · left; simpa using hm.symm
  · right
    refine ⟨by simpa using h1, h2, h4, ?_⟩
    simpa using hm.symm

theorem newNode_text (re : Regexp) (path : Str) (static : Bool)
    (h : Option (List handlerFunc)) (m : node) (hm : newNode re path static h = some m) :
    m.text = path := by
  rcases newNode_cases re path static h m hm with rfl | ⟨-, -, -, rfl⟩ <;> rfl

theorem newNode_handlers (re : Regexp) (path : Str) (static : Bool)
    (h : Option (List handlerFunc)) (m : node) (hm : newNode re path static h = some m) :
    m.handlers = h := by
  rcases newNode_cases re path static h m hm with rfl | ⟨-, -, -, rfl⟩ <;> rfl

theorem newNode_children (re : Regexp) (path : Str) (static : Bool)
    (h : Option (List handlerFunc)) (m : node) (hm : newNode re path static h = some m) :
    m.children = [] := by
  rcases newNode_cases re path static h m hm with rfl | ⟨-, -, -, rfl⟩ <;> rfl

theorem newNode_notBoth (re : Regexp) (path : Str) (static : Bool)
    (h : Option (List handlerFunc)) (m : node) (hm : newNode re path static h = some m) :
    m.dynamic ≠ none → m.static = [] := by
  rcases newNode_cases re path static h m hm with rfl | ⟨-, -, -, rfl⟩
  · intro hd
    exact absurd rfl hd
  · intro _
    rfl

/-- `newNode` returns when the source and its anchored form compile. -/
theorem newNode_isSome (re : Regexp) (path : Str) (static : Bool)
    (h : Option (List handlerFunc)) (h1 : re.compiles path = true)
    (h2 : re.compiles ('^' :: path) = true) : (newNode re path static h).isSome := by
  unfold newNode
  split_ifs <;> rfl

/-- C11, as the code has it. The children of the node are literal children
(non-empty `static`, no pattern) followed by dynamic children (a pattern, empty
`static`), and none shares a common prefix with the path. When `newNode`
returns the new node, `addToChildren` returns `addResultSuccess`; the children
it leaves are the old children, in their order, with the new node in one place:
before the first dynamic child when the new node has a non-empty `static`, at
the end when it is dynamic. When `newNode` panics, so does `addToChildren`.
`newNode` returns for every literal path, and for every pattern that compiles,
as it is and with a leading `^`. -/
theorem addToChildren_new_child (re : Regexp) (fuel : Nat) (n : node) (path : Str)
    (static : Bool) (handlers : Option (List handlerFunc)) (ss ds : List node)
    (hcs : n.children = ss ++ ds)
    (hss : ∀ c ∈ ss, c.static ≠ [] ∧ c.dynamic = none)
    (hds : ∀ c ∈ ds, c.static = [] ∧ c.dynamic ≠ none)
    (hcp : ∀ c ∈ n.children, c.commonPrefix path static = []) :
    (∀ new, newNode re path static handlers = some new →
      ∃ cs1, n.addToChildren re (node.addFuel re (fuel + 1)) path static handlers =
          some (addResultSuccess, node.mk n.static n.dynamic n.handlers cs1) ∧
        (new.static ≠ [] → cs1 = ss ++ new :: ds) ∧
        (new.dynamic ≠ none → cs1 = ss ++ ds ++ [new]) ∧
        ∃ pre post, n.children = pre ++ post ∧ cs1 = pre ++ new :: post) ∧
    (newNode re path static handlers = none →
      n.addToChildren re (node.addFuel re (fuel + 1)) path static handlers = none) ∧
    (static = true → (newNode re path static handlers).isSome) ∧
    (re.compiles path = true → re.compiles ('^' :: path) = true →
      (newNode re path static handlers).isSome) := by
  have hloop : addLoop (fun c => node.addFuel re (fuel + 1) c path static handlers)
      n.children = some none := by
    apply addLoop_of_all_zero
    intro x hx
    rw [node.addFuel]
    simp [hcp x hx]
  refine ⟨?_, ?_, ?_, newNode_isSome re path static handlers⟩
  · intro new hnew
    refine ⟨insertChild n.children new, ?_, ?_, ?_, ?_⟩
    · unfold node.addToChildren
      rw [hloop, hnew]
    · intro h
      rw [hcs]
      exact (insertChild_sorted ss ds _ hss hds).1 h
    · intro h
      rw [hcs]
      exact (insertChild_sorted ss ds _ hss hds).2
        (newNode_notBoth re path static handlers new hnew h)
    · rw [hcs]
      by_cases hst : new.static = []
      · exact ⟨ss ++ ds, [], by simp, by
          rw [(insertChild_sorted ss ds _ hss hds).2 hst]⟩
      · exact ⟨ss, ds, rfl, (insertChild_sorted ss ds _ hss hds).1 hst⟩
  · intro hnew
    unfold node.addToChildren
    rw [hloop, hnew]
  · intro hst
    rw [hst, newNode_static]
    rfl

/-- C11 at the node `[a-z]+/` with the children `x` and `[0-9]+`, for the new
literal child `y`. -/
theorem addToChildren_new_child_witness :
    exampleChain.children =
      [node.mk "x".toList none (some [2]) []] ++
        [node.mk [] (some "^[0-9]+".toList) (some [1]) []] ∧
    newNode goRegexp "y".toList true (some [3]) =
      some (node.mk "y".toList none (some [3]) []) ∧
    exampleChain.addToChildren goRegexp (node.addFuel goRegexp (0 + 1)) "y".toList true
        (some [3]) =
      some (addResultSuccess,
        node.mk exampleChain.static exampleChain.dynamic exampleChain.handlers
          [node.mk "x".toList none (some [2]) [], node.mk "y".toList none (some [3]) [],
            node.mk [] (some "^[0-9]+".toList) (some [1]) []]) ∧
    ∃ cs1, exampleChain.addToChildren goRegexp (node.addFuel goRegexp (0 + 1)) "y".toList true
        (some [3]) =
        some (addResultSuccess,
          node.mk exampleChain.static exampleChain.dynamic exampleChain.handlers cs1) ∧
      ((node.mk "y".toList none (some [3]) []).static ≠ [] →
        cs1 = [node.mk "x".toList none (some [2]) []] ++
          node.mk "y".toList none (some [3]) [] ::
            [node.mk [] (some "^[0-9]+".toList) (some [1]) []]) ∧
      ((node.mk "y".toList none (some [3]) []).dynamic ≠ none →
        cs1 = [node.mk "x".toList none (some [2]) []] ++
          [node.mk [] (some "^[0-9]+".toList) (some [1]) []] ++
            [node.mk "y".toList none (some [3]) []]) ∧
      ∃ pre post, exampleChain.children = pre ++ post ∧
        cs1 = pre ++ node.mk "y".toList none (some [3]) [] :: post :=
  ⟨rfl, rfl, by rfl,
    (addToChildren_new_child goRegexp 0 exampleChain "y".toList true (some [3])
      [node.mk "x".toList none (some [2]) []]
      [node.mk [] (some "^[0-9]+".toList) (some [1]) []] rfl
      (by
        intro c hc
        rw [List.mem_singleton] at hc
        subst hc
        exact ⟨by decide, rfl⟩)
      (by
        intro c hc
        rw [List.mem_singleton] at hc
        subst hc
        exact ⟨rfl, by simp [node.dynamic]⟩)
      (by
        intro c hc
        simp only [exampleChain, node.children, List.mem_cons, List.mem_singleton,
          List.not_mem_nil, or_false] at hc
        rcases hc with rfl | rfl <;> rfl)).1 _ rfl⟩

/-- C11 fails as stated. The node `/` has no children, so that no child shares a
prefix with the path `(`; the pattern `(` does not compile, `newNode` panics in
`regexp.MustCompile`, and `addToChildren("(", false, h)` does not return
`addResultSuccess`: it does not return. The same happens at the node `a\` with
the one literal child `.b` for the path `+b`, the call that `add` makes when the
route `/a\+b` is registered after `/a\.b`. -/
theorem addToChildren_pattern_panics :
    (node.mk "/".toList none (some [1]) []).children = [] ∧
    goRegexp.compiles "(".toList = false ∧
    newNode goRegexp "(".toList false (some [2]) = none ∧
    (node.mk "/".toList none (some [1]) []).addToChildren goRegexp
      (node.addFuel goRegexp (0 + 1)) "(".toList false (some [2]) = none ∧
    (node.mk ['.', 'b'] none (some [2]) []).commonPrefix ['+', 'b'] false = [] ∧
    goRegexp.compiles ['+', 'b'] = false ∧
    (node.mk ['a', '\\'] none none [node.mk ['.', 'b'] none (some [2]) []]).addToChildren
      goRegexp (node.addFuel goRegexp (0 + 1)) ['+', 'b'] false (some [3]) = none := by
  refine ⟨rfl, by rfl, by rfl, by rfl, by rfl, by rfl, by rfl⟩

/-! ## The postcondition of `split` -/

theorem text_mk_fields (m : node) (h : Option (List handlerFunc)) (cs : List node) :
    (node.mk m.static m.dynamic h cs).text = m.text := by
  cases m; rfl

/-- What `split` returns on a dynamic node without `static` text, when it
returns: the remainder of the source made a node, and the cut compiled. -/
theorem split_dynamic (re : Regexp) (src : Str) (h : Option (List handlerFunc))
    (cs : List node) (c : Str) (n1 : node)
    (hsp : node.split re (node.mk [] (some src) h cs) c = some n1) :
    ∃ child, c.length + 1 ≤ src.length ∧
      newNode re (src.drop (c.length + 1)) false h = some child ∧
      re.compiles c = true ∧
      ((re.literalComplete c = true ∧
          n1 = node.mk c none none [node.mk child.static child.dynamic child.handlers cs]) ∨
        (re.literalComplete c = false ∧ re.compiles ('^' :: c) = true ∧
          n1 = node.mk [] (some ('^' :: c)) none
            [node.mk child.static child.dynamic child.handlers cs])) := by
  unfold node.split at hsp
  rw [if_neg (by simp [node.static])] at hsp
  change (if c.length + 1 ≤ src.length then _ else _) = _ at hsp
  by_cases hle : c.length + 1 ≤ src.length
  · rw [if_pos hle] at hsp
    cases hchild : newNode re (src.drop (c.length + 1)) false h with
    | none =>
      rw [show (node.mk [] (some src) h cs).handlers = h from rfl, hchild] at hsp
      simp at hsp
    | some child =>
      rw [show (node.mk [] (some src) h cs).handlers = h from rfl, hchild] at hsp
      change (if re.compiles c = true then _ else _) = _ at hsp
      by_cases h1 : re.compiles c = true
      · rw [if_pos h1] at hsp
        by_cases h2 : re.literalComplete c = true
        · rw [if_pos h2] at hsp
          simp only [Option.some.injEq] at hsp
          exact ⟨child, hle, rfl, h1, Or.inl ⟨h2, hsp.symm⟩⟩
        · rw [if_neg h2] at hsp
          by_cases h3 : re.compiles ('^' :: c) = true
          · rw [if_pos h3] at hsp
            simp only [Option.some.injEq] at hsp
            exact ⟨child, hle, rfl, h1, Or.inr ⟨by simpa using h2, h3, hsp.symm⟩⟩
          · rw [if_neg h3] at hsp
            simp at hsp
      · rw [if_neg h1] at hsp
        simp at hsp
  · rw [if_neg hle] at hsp
    simp at hsp

/-- On a dynamic node without `static` text, `split` returns when the remainder
of the source makes a node and the cut and its anchored form compile. -/
theorem split_dynamic_isSome (re : Regexp) (src : Str) (h : Option (List handlerFunc))
    (cs : List node) (c : Str) (hle : c.length + 1 ≤ src.length)
    (hchild : (newNode re (src.drop (c.length + 1)) false h).isSome)
    (h1 : re.compiles c = true) (h2 : re.compiles ('^' :: c) = true) :
    (node.split re (node.mk [] (some src) h cs) c).isSome := by
  obtain ⟨child, hchild⟩ := Option.isSome_iff_exists.1 hchild
  simp only [node.split, node.static, node.dynamic, node.handlers, node.children,
    List.length_nil, Nat.lt_irrefl, if_false, hle, if_true, hchild, h1, h2]
  split_ifs <;> rfl

/-- C17, as the code has it. For a node that is literal or dynamic (it has no
`static` text when it has a pattern) and a prefix `c` strictly shorter than the
node's text: when `split(c)` returns, it leaves the node with text `c` (with
`static = c` and no pattern when the node was literal), no handler chain and
one child, and the child holds the rest of the old text, the old handler chain
and the old children. `split(c)` returns on every literal node; on a dynamic
node it returns when the cut `c`, the rest of the pattern source after `c`, and
their anchored forms compile, and otherwise panics in `regexp.MustCompile`. -/
theorem split_postcondition (re : Regexp) (n : node) (c : Str)
    (hwf : n.dynamic ≠ none → n.static = []) (hlen : c.length < n.text.length) :
    (∀ n1, n.split re c = some n1 → ∃ child, n1.text = c ∧
      (n.dynamic = none → n1.static = c ∧ n1.dynamic = none) ∧
      n1.handlers = none ∧ n1.children = [child] ∧
      child.text = n.text.drop c.length ∧ child.handlers = n.handlers ∧
      child.children = n.children) ∧
    (n.dynamic = none → (n.split re c).isSome) ∧
    (re.compiles c = true → re.compiles ('^' :: c) = true →
      re.compiles (n.text.drop c.length) = true →
      re.compiles ('^' :: n.text.drop c.length) = true → (n.split re c).isSome) := by
  cases n with
  | mk s d h cs =>
    cases d with
    | none =>
      have hlen2 : c.length < s.length := hlen
      have hsp := split_literal re s h cs c hlen2
      refine ⟨?_, fun _ => by rw [hsp]; rfl, fun _ _ _ _ => by rw [hsp]; rfl⟩
      intro n1 hn1
      rw [hsp] at hn1
      simp only [Option.some.injEq] at hn1
      subst hn1
      exact ⟨node.mk (s.drop c.length) none h cs, rfl, fun _ => ⟨rfl, rfl⟩, rfl, rfl, rfl,
        rfl, rfl⟩
    | some src =>
      have hs : s = [] := hwf (by simp [node.dynamic])
      subst hs
      have hlen2 : c.length < (src.drop 1).length := hlen
      rw [List.length_drop] at hlen2
      have hle : c.length + 1 ≤ src.length := by omega
      have hdrop : List.drop (c.length + 1) src = List.drop c.length (List.drop 1 src) := by
        rw [List.drop_drop, Nat.add_comm]
      refine ⟨?_, fun hd => by simp [node.dynamic] at hd, ?_⟩
      · intro n1 hn1
        obtain ⟨child, -, hchild, -, ⟨-, rfl⟩ | ⟨-, -, rfl⟩⟩ :=
          split_dynamic re src h cs c n1 hn1
        · refine ⟨_, rfl, fun _ => ⟨rfl, rfl⟩, rfl, rfl, ?_,
            newNode_handlers re _ false h child hchild, rfl⟩
          rw [text_mk_fields, newNode_text re _ false h child hchild, hdrop]
          rfl
        · refine ⟨_, rfl, fun hd => by simp [node.dynamic] at hd, rfl, rfl, ?_,
            newNode_handlers re _ false h child hchild, rfl⟩
          rw [text_mk_fields, newNode_text re _ false h child hchild, hdrop]
          rfl
      · intro h1 h2 h3 h4
        have h3a : re.compiles (src.drop (c.length + 1)) = true := by
          rw [hdrop]; exact h3
        have h4a : re.compiles ('^' :: src.drop (c.length + 1)) = true := by
          rw [hdrop]; exact h4
        exact split_dynamic_isSome re src h cs c hle (newNode_isSome re _ false h h3a h4a)
          h1 h2

/-- C17 at the dynamic node `ab[0-9]+` split at `a`. -/
theorem split_postcondition_witness :
    ((node.mk [] (some "^ab[0-9]+".toList) (some [2]) []).dynamic ≠ none →
      (node.mk [] (some "^ab[0-9]+".toList) (some [2]) []).static = []) ∧
    "a".toList.length < (node.mk [] (some "^ab[0-9]+".toList) (some [2]) []).text.length ∧
    (node.mk [] (some "^ab[0-9]+".toList) (some [2]) []).split goRegexp "a".toList =
      some (node.mk "a".toList none none
        [node.mk [] (some "^b[0-9]+".toList) (some [2]) []]) ∧
    ∃ child, (node.mk "a".toList none none
        [node.mk [] (some "^b[0-9]+".toList) (some [2]) []]).text = "a".toList ∧
      ((node.mk [] (some "^ab[0-9]+".toList) (some [2]) []).dynamic = none →
        (node.mk "a".toList none none
          [node.mk [] (some "^b[0-9]+".toList) (some [2]) []]).static = "a".toList ∧
        (node.mk "a".toList none none
          [node.mk [] (some "^b[0-9]+".toList) (some [2]) []]).dynamic = none) ∧
      (node.mk "a".toList none none
        [node.mk [] (some "^b[0-9]+".toList) (some [2]) []]).handlers = none ∧
      (node.mk "a".toList none none
        [node.mk [] (some "^b[0-9]+".toList) (some [2]) []]).children = [child] ∧
      child.text =
        (node.mk [] (some "^ab[0-9]+".toList) (some [2]) []).text.drop "a".toList.length ∧
      child.handlers = (node.mk [] (some "^ab[0-9]+".toList) (some [2]) []).handlers ∧
      child.children = (node.mk [] (some "^ab[0-9]+".toList) (some [2]) []).children :=
  ⟨fun _ => rfl, by decide, by rfl,
    (split_postcondition goRegexp (node.mk [] (some "^ab[0-9]+".toList) (some [2]) [])
      "a".toList (fun _ => rfl) (by decide)).1 _ (by rfl)⟩

/-- C17 fails as stated. The dynamic node of the pattern `[a-z]+` has the text
`[a-z]+`, of which `[a-z]` is a non-empty prefix that is strictly shorter. The
rest of the source after the cut is `+`, which does not compile: `split`
panics in `newNode`, in `regexp.MustCompile`, and leaves no node. -/
theorem split_pattern_panics :
    newNode goRegexp "[a-z]+".toList false (some [1]) =
      some (node.mk [] (some "^[a-z]+".toList) (some [1]) []) ∧
    (node.mk [] (some "^[a-z]+".toList) (some [1]) []).text = "[a-z]+".toList ∧
    "[a-z]".toList ≠ [] ∧
    "[a-z]".toList <+: (node.mk [] (some "^[a-z]+".toList) (some [1]) []).text ∧
    "[a-z]".toList.length <
      (node.mk [] (some "^[a-z]+".toList) (some [1]) []).text.length ∧
    ("^[a-z]+".toList).drop ("[a-z]".toList.length + 1) = "+".toList ∧
    goRegexp.compiles "+".toList = false ∧
    newNode goRegexp "+".toList false (some [1]) = none ∧
    (node.mk [] (some "^[a-z]+".toList) (some [1]) []).split goRegexp "[a-z]".toList = none := by
  refine ⟨by rfl, rfl, by decide, ⟨"+".toList, rfl⟩, by decide, rfl, by rfl, by rfl, by rfl⟩

/-! ## `add` on any tree -/

/-- The body of `add`, on any node. -/
theorem addFuel_unfold (re : Regexp) (fuel : Nat) (n : node) (path : Str) (static : Bool)
    (hs : Option (List handlerFunc)) :
    node.addFuel re (fuel + 1) n path static hs =
      if n.commonPrefix path static = [] then some (addResultNoCommonPrefix, n)
      else
        match (if (n.commonPrefix path static).length < n.static.length ∨
            (n.dynamic.isSome ∧
              (n.commonPrefix path static).length < (n.dynamic.getD []).length - 1) then
            n.split re (n.commonPrefix path static) else some n) with
        | none => none
        | some n2 =>
          if path.drop (n.commonPrefix path static).length = [] then
            if n2.handlers.isNone then
              some (addResultSuccess, node.mk n2.static n2.dynamic hs n2.children)
            else some (addResultConflict, n2)
          else n2.addToChildren re (node.addFuel re fuel)
            (path.drop (n.commonPrefix path static).length) static hs := by
  rw [node.addFuel]
  simp only [List.length_eq_zero]

/-- The outcomes of one call of `add`, on any node. `n2` is the node after the
split, when there is one. -/
theorem addFuel_cases (re : Regexp) (fuel : Nat) (n : node) (path : Str) (static : Bool)
    (hs : Option (List handlerFunc)) (r : Nat) (n1 : node)
    (hadd : node.addFuel re (fuel + 1) n path static hs = some (r, n1)) :
    (n.commonPrefix path static = [] ∧ r = addResultNoCommonPrefix ∧ n1 = n) ∨
    (n.commonPrefix path static ≠ [] ∧ ∃ n2,
      ((((n.commonPrefix path static).length < n.static.length ∨
          (n.dynamic.isSome ∧
            (n.commonPrefix path static).length < (n.dynamic.getD []).length - 1)) ∧
          n.split re (n.commonPrefix path static) = some n2) ∨ n2 = n) ∧
      ((path.drop (n.commonPrefix path static).length = [] ∧ r = addResultSuccess ∧
          n1 = node.mk n2.static n2.dynamic hs n2.children) ∨
        (path.drop (n.commonPrefix path static).length = [] ∧ r = addResultConflict ∧
          n1 = n2) ∨
        (path.drop (n.commonPrefix path static).length ≠ [] ∧
          r ≠ addResultNoCommonPrefix ∧
          ∃ pre c c1 post, n2.children = pre ++ c :: post ∧
            n1 = node.mk n2.static n2.dynamic n2.handlers (pre ++ c1 :: post) ∧
            node.addFuel re fuel c (path.drop (n.commonPrefix path static).length) static hs =
              some (r, c1)) ∨
        (path.drop (n.commonPrefix path static).length ≠ [] ∧ r = addResultSuccess ∧
          ∃ child,
            newNode re (path.drop (n.commonPrefix path static).length) static hs =
              some child ∧
            n1 = node.mk n2.static n2.dynamic n2.handlers
              (insertChild n2.children child)))) := by
  rw [addFuel_unfold] at hadd
  by_cases h0 : n.commonPrefix path static = []
  · simp only [h0, if_true, Option.some.injEq, Prod.mk.injEq] at hadd
    exact Or.inl ⟨h0, hadd.1.symm, hadd.2.symm⟩
  · right
    refine ⟨h0, ?_⟩
    simp only [h0, if_false] at hadd
    split at hadd
    · simp at hadd
    · rename_i n2 hn2
      refine ⟨n2, ?_, ?_⟩
      · split_ifs at hn2 with hc
        · exact Or.inl ⟨hc, hn2⟩
        · right
          simp only [Option.some.injEq] at hn2
          exact hn2.symm
      · split_ifs at hadd with hc hh
        · simp only [Option.some.injEq, Prod.mk.injEq] at hadd
          exact Or.inl ⟨hc, hadd.1.symm, hadd.2.symm⟩
        · simp only [Option.some.injEq, Prod.mk.injEq] at hadd
          exact Or.inr (Or.inl ⟨hc, hadd.1.symm, hadd.2.symm⟩)
        · right; right
          unfold node.addToChildren at hadd
          split at hadd
          · simp at hadd
          · rename_i r1 cs1 hl
            simp only [Option.some.injEq, Prod.mk.injEq] at hadd
            obtain ⟨rfl, rfl⟩ := hadd
            obtain ⟨hne, pre, c, c1, post, e1, e2, e3, -⟩ :=
              addLoop_eq_some_some _ (fun x x1 hx => addFuel_zero_eq re fuel _ _ _ _ _ hx)
                n2.children r1 cs1 hl
            exact Or.inl ⟨hc, hne, pre, c, c1, post, e1, by rw [e2], e3⟩
          · split at hadd
            · simp at hadd
            · rename_i child hchild
              simp only [Option.some.injEq, Prod.mk.injEq] at hadd
              exact Or.inr ⟨hc, hadd.1.symm, child, hchild, hadd.2.symm⟩

/-- The code returned by `add` is one of the three result codes. -/
theorem addFuel_code (re : Regexp) (static : Bool)
    (hs : Option (List handlerFunc)) (fuel : Nat) :
    ∀ (n : node) (p : Str) (r : Nat) (n1 : node),
      node.addFuel re fuel n p static hs = some (r, n1) →
      r = addResultNoCommonPrefix ∨ r = addResultSuccess ∨ r = addResultConflict := by
  induction fuel with
  | zero => intro n p r n1 hadd; simp [node.addFuel] at hadd
  | succ fuel ih =>
    intro n p r n1 hadd
    rcases addFuel_cases re fuel n p static hs r n1 hadd with
      ⟨-, hr, -⟩ | ⟨-, n2, -, ⟨-, hr, -⟩ | ⟨-, hr, -⟩ | ⟨-, -, pre, c, c1, post, -, -, e3⟩ |
        ⟨-, hr, -⟩⟩
    · exact Or.inl hr
    · exact Or.inr (Or.inl hr)
    · exact Or.inr (Or.inr hr)
    · exact ih c _ r c1 e3
    · exact Or.inr (Or.inl hr)

theorem node.all_iff_children (P : node → Prop) (n : node) :
    n.all P ↔ P n ∧ ∀ c ∈ n.children, c.all P := by
  cases n with
  | mk s d h cs => exact node.all_mk P s d h cs

theorem commonPrefix_length_le (n : node) (path : Str) (static : Bool) :
    (n.commonPrefix path static).length ≤ path.length ∧
      (n.commonPrefix path static).length ≤ n.text.length :=
  ⟨lcp_length_le_right _ _, lcp_length_le_left _ _⟩

/-- When every regular expression compiles and `add` decides to split a node
that is not both literal and dynamic, `split` returns, and the node it leaves
has one child, which is not both literal and dynamic either and holds the old
children. -/
theorem split_isSome (re : Regexp) (n : node) (path : Str) (static : Bool)
    (hall : ∀ s, re.compiles s = true)
    (hwf : n.dynamic ≠ none → n.static = [])
    (hc : (n.commonPrefix path static).length < n.static.length ∨
      (n.dynamic.isSome ∧
        (n.commonPrefix path static).length < (n.dynamic.getD []).length - 1)) :
    ∃ n2 child, n.split re (n.commonPrefix path static) = some n2 ∧ n2.children = [child] ∧
      child.children = n.children ∧ (child.dynamic ≠ none → child.static = []) := by
  cases n with
  | mk s d h cs =>
    cases d with
    | none =>
      simp only [node.static, node.dynamic, Option.isSome_none, Bool.false_eq_true, false_and,
        or_false] at hc
      exact ⟨_, node.mk (s.drop (node.commonPrefix (node.mk s none h cs) path static).length)
        none h cs, split_literal re s h cs _ hc, rfl, rfl, fun hd => absurd rfl hd⟩
    | some src =>
      have hs : s = [] := hwf (by simp [node.dynamic])
      subst hs
      simp only [node.static, node.dynamic, List.length_nil, Nat.not_lt_zero, false_or,
        Option.isSome_some, true_and, Option.getD_some] at hc
      have hle : (node.commonPrefix (node.mk [] (some src) h cs) path static).length + 1 ≤
          src.length := by omega
      have hsome := split_dynamic_isSome re src h cs _ hle
        (newNode_isSome re _ false h (hall _) (hall _)) (hall _) (hall _)
      obtain ⟨n2, hn2⟩ := Option.isSome_iff_exists.1 hsome
      obtain ⟨child, -, hchild, -, ⟨-, e⟩ | ⟨-, -, e⟩⟩ := split_dynamic re src h cs _ n2 hn2
      · subst e
        exact ⟨_, _, hn2, rfl, rfl, newNode_notBoth re _ false h child hchild⟩
      · subst e
        exact ⟨_, _, hn2, rfl, rfl, newNode_notBoth re _ false h child hchild⟩

/-- When every regular expression compiles, `add` gives a result on a tree none
of whose nodes is both literal and dynamic, at every depth above the length of
the path: a panic in `regexp.MustCompile` is all that keeps `add` from
returning. -/
theorem addFuel_isSome (re : Regexp) (static : Bool) (hs : Option (List handlerFunc))
    (hall : ∀ s, re.compiles s = true) (fuel : Nat) :
    ∀ (n : node) (p : Str), n.notBoth → p.length < fuel →
      (node.addFuel re fuel n p static hs).isSome := by
  induction fuel with
  | zero => intro n p _ hp; omega
  | succ fuel ih =>
    intro n p hwf hp
    have hroot : n.dynamic ≠ none → n.static = [] := by
      cases n with
      | mk s d h cs => exact ((node.all_mk _ s d h cs).1 hwf).1
    have hkids : ∀ c ∈ n.children, c.notBoth := by
      cases n with
      | mk s d h cs => exact ((node.all_mk _ s d h cs).1 hwf).2
    rw [addFuel_unfold]
    by_cases h0 : n.commonPrefix p static = []
    · simp [h0]
    · simp only [h0, if_false]
      have hdrop : (p.drop (n.commonPrefix p static).length).length < fuel := by
        have := List.length_pos.2 h0
        have := (commonPrefix_length_le n p static).1
        rw [List.length_drop]
        omega
      have hloop : ∀ (m : node), (∀ c ∈ m.children, c.notBoth) →
          (node.addToChildren re (node.addFuel re fuel) m
            (p.drop (n.commonPrefix p static).length) static hs).isSome := by
        intro m hm
        have := addLoop_isSome
          (fun c => node.addFuel re fuel c (p.drop (n.commonPrefix p static).length) static hs)
          m.children (fun x hx => ih x _ (hm x hx) hdrop)
        obtain ⟨child, hchild⟩ := Option.isSome_iff_exists.1
          (newNode_isSome re (p.drop (n.commonPrefix p static).length) static hs
            (hall _) (hall _))
        unfold node.addToChildren
        cases hl : addLoop
            (fun c => node.addFuel re fuel c (p.drop (n.commonPrefix p static).length)
              static hs) m.children with
        | none => simp [hl] at this
        | some o =>
          cases o with
          | none => simp only [hchild]; rfl
          | some x => rfl
      by_cases hc : (n.commonPrefix p static).length < n.static.length ∨
          (n.dynamic.isSome ∧
            (n.commonPrefix p static).length < (n.dynamic.getD []).length - 1)
      · obtain ⟨n2, child, e1, e2, e3, e4⟩ := split_isSome re n p static hall hroot hc
        rw [if_pos hc, e1]
        simp only
        split_ifs
        · rfl
        · rfl
        · apply hloop
          intro c hcm
          rw [e2, List.mem_singleton] at hcm
          subst hcm
          unfold node.notBoth
          rw [node.all_iff_children]
          exact ⟨e4, by rw [e3]; exact hkids⟩
      · rw [if_neg hc]
        simp only
        split_ifs
        · rfl
        · rfl
        · exact hloop n hkids

/-- C13, as the code has it. No-match signalling, for every node, path, flag
and handler chain. `add` returns `addResultNoCommonPrefix` if and only if the
common prefix of the node's text and the path is empty, and it then returns the
node as it was. When the common prefix is not empty, every code `add` returns
is `addResultSuccess` or `addResultConflict`; `addToChildren` never returns
`addResultNoCommonPrefix`, whatever the children answer. `add` does return a
code for a literal path on a tree whose nodes are all literal, and for any path
on a tree none of whose nodes has both a `static` text and a pattern when every
regular expression it compiles is accepted; otherwise it may panic in
`regexp.MustCompile` and return no code. -/
theorem add_no_match_iff (re : Regexp) (n : node) (path : Str) (static : Bool)
    (hs : Option (List handlerFunc)) :
    ((∃ n1, n.add re path static hs = some (addResultNoCommonPrefix, n1)) ↔
      n.commonPrefix path static = []) ∧
    (n.commonPrefix path static = [] →
      n.add re path static hs = some (addResultNoCommonPrefix, n)) ∧
    (∀ r n1, n.add re path static hs = some (r, n1) → n.commonPrefix path static ≠ [] →
      r = addResultSuccess ∨ r = addResultConflict) ∧
    (∀ (add1 : node → Str → Bool → Option (List handlerFunc) → Option (Nat × node))
        (m : node) (q : Str) (r : Nat) (m1 : node),
      m.addToChildren re add1 q static hs = some (r, m1) → r ≠ addResultNoCommonPrefix) ∧
    (n.allLiteral → (n.add re path true hs).isSome) ∧
    ((∀ s, re.compiles s = true) → n.notBoth → (n.add re path static hs).isSome) := by
  have hzero : n.commonPrefix path static = [] →
      n.add re path static hs = some (addResultNoCommonPrefix, n) := by
    intro h0
    unfold node.add
    rw [addFuel_unfold, if_pos h0]
  refine ⟨⟨?_, fun h0 => ⟨n, hzero h0⟩⟩, hzero, ?_, ?_, ?_, ?_⟩
  · rintro ⟨n1, h⟩
    exact (addFuel_zero re _ n path static hs _ n1 h).1 rfl
  · intro r n1 h hne
    rcases addFuel_code re static hs _ n path r n1 h with h0 | h1
    · exact absurd ((addFuel_zero re _ n path static hs r n1 h).1 h0) hne
    · exact h1
  · intro add1 m q r m1 h
    unfold node.addToChildren at h
    split at h
    · simp at h
    · rename_i r1 cs1 hl
      simp only [Option.some.injEq, Prod.mk.injEq] at h
      rw [← h.1]
      exact addLoop_code_ne_zero _ _ _ _ hl
    · split at h
      · simp at h
      · simp only [Option.some.injEq, Prod.mk.injEq] at h
        rw [← h.1]
        decide
  · intro hlit
    exact add_isSome_literal re n path hs hlit
  · intro hall hwf
    exact addFuel_isSome re static hs hall _ n path hwf (Nat.lt_succ_self _)

/-- C13 fails as stated. The routes `/a\.b` and `/a\+b` are patterns that
compile. On the root `/` the first is added with success. For the second the
common prefix at the root is `/`, not empty, and the common prefix at the child
`a\.b` is `a\`, so that the child is split and the rest of the path is `+b`,
which does not compile: `newNode` panics in `regexp.MustCompile` and `add`
returns no result code. -/
theorem add_nonempty_common_panics :
    goRegexp.compiles ['/', 'a', '\\', '.', 'b'] = true ∧
    goRegexp.compiles ['/', 'a', '\\', '+', 'b'] = true ∧
    (node.mk ['/'] none (some [1]) []).add goRegexp ['/', 'a', '\\', '.', 'b'] false
        (some [2]) =
      some (addResultSuccess,
        node.mk ['/'] none (some [1]) [node.mk ['a', '\\', '.', 'b'] none (some [2]) []]) ∧
    (node.mk ['/'] none (some [1])
        [node.mk ['a', '\\', '.', 'b'] none (some [2]) []]).commonPrefix
      ['/', 'a', '\\', '+', 'b'] false = ['/'] ∧
    (node.mk ['a', '\\', '.', 'b'] none (some [2]) []).commonPrefix
      ['a', '\\', '+', 'b'] false = ['a', '\\'] ∧
    goRegexp.compiles ['+', 'b'] = false ∧
    newNode goRegexp ['+', 'b'] false (some [3]) = none ∧
    (node.mk ['/'] none (some [1])
        [node.mk ['a', '\\', '.', 'b'] none (some [2]) []]).add goRegexp
      ['/', 'a', '\\', '+', 'b'] false (some [3]) = none := by
  refine ⟨by rfl, by rfl, by rfl, by rfl, by rfl, by rfl, by rfl, by rfl⟩

/-! ## Every node is of one kind -/

theorem oneKind_mk_fields (m : node) (h : Option (List handlerFunc)) (cs : List node) :
    (node.mk m.static m.dynamic h cs).oneKind ↔ m.oneKind := by
  cases m; rfl

theorem newNode_oneKind (re : Regexp) (path : Str) (static : Bool)
    (h : Option (List handlerFunc)) (hp : path ≠ []) (m : node)
    (hm : newNode re path static h = some m) : m.oneKind := by
  rcases newNode_cases re path static h m hm with rfl | ⟨-, -, -, rfl⟩
  · exact Or.inl ⟨hp, rfl⟩
  · exact Or.inr ⟨rfl, by simp [node.dynamic]⟩

theorem mem_insertChild (cs : List node) (c x : node) :
    x ∈ insertChild cs c ↔ x ∈ cs ∨ x = c := by
  unfold insertChild
  split_ifs
  · rw [List.mem_append, List.mem_cons]
    constructor
    · rintro (h | h | h)
      · exact Or.inl (List.mem_of_mem_take h)
      · exact Or.inr h
      · exact Or.inl (List.mem_of_mem_drop h)
    · rintro (h | h)
      · rw [← List.take_append_drop (staticRun cs) cs, List.mem_append] at h
        rcases h with h | h
        · exact Or.inl h
        · exact Or.inr (Or.inr h)
      · exact Or.inr (Or.inl h)
  · simp

/-- The split that `add` makes keeps every node of one kind. -/
theorem split_oneKind (re : Regexp) (n : node) (path : Str) (static : Bool) (n2 : node)
    (hn : n.all node.oneKind) (h0 : n.commonPrefix path static ≠ [])
    (hc : (n.commonPrefix path static).length < n.static.length ∨
      (n.dynamic.isSome ∧
        (n.commonPrefix path static).length < (n.dynamic.getD []).length - 1))
    (hsplit : n.split re (n.commonPrefix path static) = some n2) :
    n2.all node.oneKind := by
  cases n with
  | mk s d h cs =>
    obtain ⟨hk, hcs⟩ := (node.all_mk _ s d h cs).1 hn
    cases d with
    | none =>
      simp only [node.static, node.dynamic, Option.isSome_none, Bool.false_eq_true, false_and,
        or_false] at hc
      rw [split_literal re s h cs _ hc] at hsplit
      simp only [Option.some.injEq] at hsplit
      subst hsplit
      rw [node.all_mk]
      refine ⟨Or.inl ⟨h0, rfl⟩, ?_⟩
      intro c hcm
      rw [List.mem_singleton] at hcm
      subst hcm
      rw [node.all_mk]
      refine ⟨Or.inl ⟨?_, rfl⟩, hcs⟩
      intro hz
      have := congrArg List.length hz
      simp only [node.static, List.length_drop, List.length_nil] at this
      omega
    | some src =>
      have hs : s = [] := by
        rcases hk with ⟨-, hd⟩ | ⟨hs, -⟩
        · simp [node.dynamic] at hd
        · exact hs
      subst hs
      simp only [node.static, node.dynamic, List.length_nil, Nat.not_lt_zero, false_or,
        Option.isSome_some, true_and, Option.getD_some] at hc
      have hle : (node.commonPrefix (node.mk [] (some src) h cs) path static).length + 1 ≤
          src.length := by omega
      have hrem : src.drop
          ((node.commonPrefix (node.mk [] (some src) h cs) path static).length + 1) ≠ [] := by
        intro hz
        have := congrArg List.length hz
        simp only [List.length_drop, List.length_nil] at this
        omega
      obtain ⟨child, -, hchild, -, hshape⟩ := split_dynamic re src h cs _ n2 hsplit
      have hkid : (node.mk child.static child.dynamic child.handlers cs).all node.oneKind := by
        rw [node.all_mk]
        refine ⟨?_, hcs⟩
        rw [oneKind_mk_fields]
        exact newNode_oneKind re _ false h hrem child hchild
      rcases hshape with ⟨-, e⟩ | ⟨-, -, e⟩
      · subst e
        rw [node.all_mk]
        refine ⟨Or.inl ⟨h0, rfl⟩, ?_⟩
        intro c hcm
        rw [List.mem_singleton] at hcm
        subst hcm
        exact hkid
      · subst e
        rw [node.all_mk]
        refine ⟨Or.inr ⟨rfl, by simp [node.dynamic]⟩, ?_⟩
        intro c hcm
        rw [List.mem_singleton] at hcm
        subst hcm
        exact hkid

/-- `add` keeps every node of one kind. -/
theorem addFuel_oneKind (re : Regexp) (static : Bool) (hs : Option (List handlerFunc))
    (fuel : Nat) :
    ∀ (n : node) (p : Str) (r : Nat) (n1 : node), n.all node.oneKind →
      node.addFuel re fuel n p static hs = some (r, n1) → n1.all node.oneKind := by
  induction fuel with
  | zero => intro n p r n1 _ hadd; simp [node.addFuel] at hadd
  | succ fuel ih =>
    intro n p r n1 hn hadd
    rcases addFuel_cases re fuel n p static hs r n1 hadd with
      ⟨-, -, rfl⟩ | ⟨h0, n2, hn2, hrest⟩
    · exact hn
    · have h2 : n2.all node.oneKind := by
        rcases hn2 with ⟨hc, hsplit⟩ | rfl
        · exact split_oneKind re n p static n2 hn h0 hc hsplit
        · exact hn
      obtain ⟨k2, kcs⟩ := (node.all_iff_children _ n2).1 h2
      rcases hrest with ⟨-, -, rfl⟩ | ⟨-, -, rfl⟩ | ⟨-, -, pre, c, c1, post, e1, rfl, e3⟩ |
        ⟨hc, -, child, hchild, rfl⟩
      · rw [node.all_mk]
        exact ⟨(oneKind_mk_fields n2 hs n2.children).2 k2, kcs⟩
      · exact h2
      · rw [node.all_mk]
        refine ⟨(oneKind_mk_fields n2 n2.handlers _).2 k2, ?_⟩
        intro x hx
        rcases List.mem_append.1 hx with hx | hx
        · exact kcs x (by rw [e1]; exact List.mem_append.2 (Or.inl hx))
        · rcases List.mem_cons.1 hx with rfl | hx
          · exact ih c _ r x (kcs c (by rw [e1]; simp)) e3
          · exact kcs x (by rw [e1]; exact List.mem_append.2 (Or.inr (List.mem_cons_of_mem _ hx)))
      · rw [node.all_mk]
        refine ⟨(oneKind_mk_fields n2 n2.handlers _).2 k2, ?_⟩
        intro x hx
        rcases (mem_insertChild _ _ x).1 hx with hx | rfl
        · exact kcs x hx
        · rw [node.all_iff_children, newNode_children re _ static hs x hchild]
          exact ⟨newNode_oneKind re _ static hs hc x hchild, by simp⟩

/-- C14. Exactly-one-kind invariant: the node that `newNode` returns for a
non-empty path, and every node of every tree reached from it by calls of `add`
(with any path, literal or not), has either a non-empty `static` and no
pattern, or a pattern and an empty `static`. -/
theorem reachable_oneKind (re : Regexp) (p0 : Str) (s0 : Bool)
    (h0 : Option (List handlerFunc)) (n0 n : node) (hp : p0 ≠ [])
    (hn0 : newNode re p0 s0 h0 = some n0) (hr : Reachable re n0 n) : n.all node.oneKind := by
  induction hr with
  | start =>
    rw [node.all_iff_children, newNode_children re p0 s0 h0 n0 hn0]
    exact ⟨newNode_oneKind re p0 s0 h0 hp n0 hn0, by simp⟩
  | add p static h _ hadd ih => exact addFuel_oneKind re static h _ _ p _ _ ih hadd

/-- C14 on the tree reached by registering `/[a-z]+`, `/ab[0-9]+` and `/ac`. -/
theorem reachable_oneKind_witness :
    "/[a-z]+".toList ≠ [] ∧
    newNode goRegexp "/[a-z]+".toList false (some [1]) =
      some (node.mk [] (some "^/[a-z]+".toList) (some [1]) []) ∧
    Reachable goRegexp (node.mk [] (some "^/[a-z]+".toList) (some [1]) []) exampleMisordered ∧
    exampleMisordered.all node.oneKind :=
  ⟨by decide, by rfl,
    Reachable.add "/ac".toList true (some [3])
      (Reachable.add "/ab[0-9]+".toList false (some [2]) Reachable.start (by rfl)) (by rfl),
    reachable_oneKind goRegexp "/[a-z]+".toList false (some [1])
      (node.mk [] (some "^/[a-z]+".toList) (some [1]) []) exampleMisordered (by decide)
      (by rfl)
      (Reachable.add "/ac".toList true (some [3])
        (Reachable.add "/ab[0-9]+".toList false (some [2]) Reachable.start (by rfl)) (by rfl))⟩

/-! ## Literal normalisation in `newNode` -/

theorem parseItems_literal (path : Str) (h : ∀ c ∈ path, isMeta c = false) :
    parseItems path = some (path.map Item.lit) := by
  induction path with
  | nil => rfl
  | cons c rest ih =>
    have hc : isMeta c = false := h c (List.mem_cons_self _ _)
    have h1 : c ≠ '[' := by
      intro e
      rw [e] at hc
      exact absurd hc (by decide)
    have h2 : c ≠ '\\' := by
      intro e
      rw [e] at hc
      exact absurd hc (by decide)
    unfold parseItems
    simp [h1, h2, hc, ih (fun x hx => h x (List.mem_cons_of_mem _ hx))]

theorem compiles_of_no_meta (path : Str) (h : ∀ c ∈ path, isMeta c = false) :
    goRegexp.compiles path = true := by
  have hp := parseItems_literal path h
  cases path with
  | nil => rfl
  | cons c rest =>
    have hc : c ≠ '^' := by
      intro e
      have := h c (List.mem_cons_self _ _)
      rw [e] at this
      exact absurd this (by decide)
    simp only [goRegexp]
    split
    · rename_i p heq
      injection heq with h1 h2
      exact absurd h1 hc
    · rw [hp]; rfl

/-- The regexp package reports a pattern without metacharacters as a complete
literal. -/
theorem literalComplete_of_no_meta (path : Str) (h : ∀ c ∈ path, isMeta c = false) :
    goRegexp.literalComplete path = true := by
  simp [goRegexp, parseItems_literal path h]

/-- Where `newNode` normalises as the specification has it. A pattern without
metacharacters gives the literal node that `newNode(path, true, h)` gives:
`static` is the pattern and there is no compiled pattern. With any regexp
engine, a pattern that compiles and that `LiteralPrefix` reports as a complete
literal gives that same node, and a pattern that compiles, with and without a
leading `^`, and that is not reported as complete gives a dynamic node: the
pattern is the source with a leading `^`, and `static` is empty. -/
theorem newNode_normalises (path : Str) (h : Option (List handlerFunc)) :
    ((∀ c ∈ path, isMeta c = false) →
      newNode goRegexp path false h = newNode goRegexp path true h ∧
        newNode goRegexp path false h = some (node.mk path none h [])) ∧
    (∀ re : Regexp, re.compiles path = true → re.literalComplete path = true →
      newNode re path false h = newNode re path true h) ∧
    (∀ re : Regexp, re.compiles path = true → re.compiles ('^' :: path) = true →
      re.literalComplete path = false →
      newNode re path false h = some (node.mk [] (some ('^' :: path)) h [])) := by
  refine ⟨?_, ?_, ?_⟩
  · intro hm
    have hc : goRegexp.compiles path = true := compiles_of_no_meta path hm
    simp [newNode, literalComplete_of_no_meta path hm, hc]
  · intro re h1 hc
    simp [newNode, hc, h1]
  · intro re h1 h2 hc
    simp [newNode, hc, h1, h2]

/-- C18: `newNode` keeps the source of a pattern that it classifies as a
literal. The pattern `a\.b` compiles, its only match is `a.b` (the anchored
pattern matches `a.b`), and `LiteralPrefix` reports it as a complete literal.
`newNode("a\.b", false, h)` is then a literal node whose `static` is the source
`a\.b`, not the literal `a.b`: it is not the node `newNode("a.b", true, h)`,
its lookup does not find `a.b`, and it finds the text `a\.b` that the pattern
does not match. -/
theorem newNode_escaped_literal :
    goRegexp.compiles ['a', '\\', '.', 'b'] = true ∧
    goRegexp.literalComplete ['a', '\\', '.', 'b'] = true ∧
    goRegexp.find ('^' :: ['a', '\\', '.', 'b']) "a.b".toList = some "a.b".toList ∧
    goRegexp.find ('^' :: ['a', '\\', '.', 'b']) ['a', '\\', '.', 'b'] = none ∧
    newNode goRegexp ['a', '\\', '.', 'b'] false (some [1]) =
      some (node.mk ['a', '\\', '.', 'b'] none (some [1]) []) ∧
    newNode goRegexp "a.b".toList true (some [1]) =
      some (node.mk "a.b".toList none (some [1]) []) ∧
    newNode goRegexp ['a', '\\', '.', 'b'] false (some [1]) ≠
      newNode goRegexp "a.b".toList true (some [1]) ∧
    (node.mk ['a', '\\', '.', 'b'] none (some [1]) []).lookup goRegexp "a.b".toList =
      (false, none, []) ∧
    (node.mk "a.b".toList none (some [1]) []).lookup goRegexp "a.b".toList =
      (true, some [1], []) ∧
    (node.mk ['a', '\\', '.', 'b'] none (some [1]) []).lookup goRegexp
      ['a', '\\', '.', 'b'] = (true, some [1], []) := by
  refine ⟨by rfl, by rfl, by rfl, by rfl, by rfl, by rfl, ?_, by rfl, by rfl, by rfl⟩
  intro h
  have := congrArg (fun o => Option.map (fun m => m.static.length) o) h
  revert this
  decide

/-! ## Soundness of lookup -/

/-- A lookup that reports no match or yields no handler chain returns no
captures, on any node. -/
theorem lookup_captures_nil (re : Regexp) (n : node) (q : Str)
    (h : (n.lookup re q).1 = false ∨ sliceLen (n.lookup re q).2.1 = 0) :
    (n.lookup re q).2.2 = [] := by
  rcases h with h | h
  · rw [lookup_not_found_eq re n q h]
  · rw [lookup_unfold] at h ⊢
    split_ifs at h ⊢ with h1 h2 h3 h4
    · rfl
    · simp only at h
      omega
    · rfl
    · simp only at h
      omega
    · rfl

/-- A handler chain returned by lookup on a literal tree is the chain of a node
reached along the path, for paths of bounded length. -/
theorem lookup_sound_aux (re : Regexp) (k : Nat) :
    ∀ (n : node) (q : Str), q.length ≤ k → n.allLiteral →
      0 < sliceLen (n.lookup re q).2.1 →
      ∃ m, PathTo n q m ∧ m.handlers = (n.lookup re q).2.1 := by
  induction k with
  | zero =>
    intro n q hq hlit hpos
    have hq0 : q = [] := List.length_eq_zero.1 (Nat.le_zero.1 hq)
    subst hq0
    cases n with
    | mk s d h cs =>
      obtain ⟨hd, -⟩ := (allLiteral_mk s d h cs).1 hlit
      subst hd
      rw [lookup_literal] at hpos
      by_cases hs : s = []
      · simp [hs, sliceLen_none] at hpos
      · have : ¬ s <+: [] := by
          intro hp
          exact hs (List.prefix_nil.1 hp)
        simp [this, sliceLen_none] at hpos
  | succ k ih =>
    intro n q hq hlit hpos
    cases n with
    | mk s d h cs =>
      obtain ⟨hd, hcs⟩ := (allLiteral_mk s d h cs).1 hlit
      subst hd
      rw [lookup_literal] at hpos ⊢
      by_cases hs : s = [] ∨ ¬ s <+: q
      · rw [if_pos hs] at hpos
        simp [sliceLen_none] at hpos
      · rw [if_neg hs] at hpos ⊢
        have hs1 : s ≠ [] := fun e => hs (Or.inl e)
        have hs2 : s <+: q := by
          by_contra e
          exact hs (Or.inr e)
        obtain ⟨t, rfl⟩ := hs2
        have hd : List.drop s.length (s ++ t) = t := List.drop_left _ _
        rw [hd] at hpos ⊢
        by_cases ht : t = []
        · subst ht
          simp only [if_true] at hpos ⊢
          by_cases hh : 0 < sliceLen h
          · rw [if_pos hh]
            refine ⟨node.mk s none h cs, ?_, rfl⟩
            rw [List.append_nil]
            exact PathTo.here (node.mk s none h cs)
          · rw [if_neg hh] at hpos
            simp [sliceLen_none] at hpos
        · simp only [ht, if_false] at hpos ⊢
          by_cases hl : 0 < sliceLen (lookupChildren re cs t).1
          · rw [if_pos hl]
            rcases lookupChildren_cases re cs t with ⟨pre, c, post, e1, -, -, e4⟩ | ⟨-, e2⟩
            · rw [e4] at hl ⊢
              have hcm : c ∈ cs := by rw [e1]; simp
              have htl : t.length ≤ k := by
                have := List.length_pos.2 hs1
                rw [List.length_append] at hq
                omega
              obtain ⟨m, hm1, hm2⟩ := ih c t htl (hcs c hcm) hl
              exact ⟨m, PathTo.child (node.mk s none h cs) c m t hcm hm1, hm2⟩
            · rw [e2] at hl
              simp [sliceLen_none] at hl
          · rw [if_neg hl] at hpos
            simp [sliceLen_none] at hpos

/-- C19. Lookup soundness: on a tree whose nodes are all literal, of any shape,
when `lookup(q)` yields a non-empty handler chain there is a chain of nodes from
`n` down to a node `m`, each a child of the one before, whose `static` texts
concatenate to `q` and whose last node `m` holds that handler chain; and when
`lookup(q)` reports no match or yields no handlers it returns no captures. -/
theorem lookup_sound (re : Regexp) (n : node) (q : Str) (hlit : n.allLiteral) :
    (0 < sliceLen (n.lookup re q).2.1 →
      ∃ m, PathTo n q m ∧ m.handlers = (n.lookup re q).2.1) ∧
    ((n.lookup re q).1 = false ∨ sliceLen (n.lookup re q).2.1 = 0 →
      (n.lookup re q).2.2 = []) :=
  ⟨lookup_sound_aux re q.length n q (Nat.le_refl _) hlit, lookup_captures_nil re n q⟩

/-- C19 on the tree holding `/foo/bar` and `/foo/baz`, at `/foo/bar`. -/
theorem lookup_sound_witness :
    exampleTwoRoutes.allLiteral ∧
    0 < sliceLen (exampleTwoRoutes.lookup goRegexp "/foo/bar".toList).2.1 ∧
    (0 < sliceLen (exampleTwoRoutes.lookup goRegexp "/foo/bar".toList).2.1 →
      ∃ m, PathTo exampleTwoRoutes "/foo/bar".toList m ∧
        m.handlers = (exampleTwoRoutes.lookup goRegexp "/foo/bar".toList).2.1) ∧
    ((exampleTwoRoutes.lookup goRegexp "/foo/bar".toList).1 = false ∨
        sliceLen (exampleTwoRoutes.lookup goRegexp "/foo/bar".toList).2.1 = 0 →
      (exampleTwoRoutes.lookup goRegexp "/foo/bar".toList).2.2 = []) :=
  ⟨by simp [exampleTwoRoutes, allLiteral_mk], by decide,
    lookup_sound goRegexp exampleTwoRoutes "/foo/bar".toList
      (by simp [exampleTwoRoutes, allLiteral_mk])⟩

/-! ## Siblings begin with distinct characters -/

mutual
/-- A property that follows from `P` on the subtree holds at every node of a
tree all of whose nodes satisfy `P`. -/
theorem node.all_of_subtree {P Q : node → Prop} (hPQ : ∀ m, m.all P → Q m) :
    ∀ n : node, n.all P → n.all Q
  | node.mk s d h cs, hn => by
    have hq := hPQ _ hn
    rw [node.all] at hn ⊢
    exact ⟨hq, allList_of_subtree hPQ cs hn.2⟩
/-- The same on a list of trees. -/
theorem allList_of_subtree {P Q : node → Prop} (hPQ : ∀ m, m.all P → Q m) :
    ∀ cs : List node, allList P cs → allList Q cs
  | [], _ => by rw [allList]; trivial
  | c :: cs, h => by
    rw [allList] at h ⊢
    exact ⟨node.all_of_subtree hPQ c h.1, allList_of_subtree hPQ cs h.2⟩
end

mutual
/-- Two properties that hold at every node hold together at every node. -/
theorem node.all_and {P Q : node → Prop} :
    ∀ n : node, n.all P → n.all Q → n.all (fun m => P m ∧ Q m)
  | node.mk s d h cs, hp, hq => by
    rw [node.all] at hp hq ⊢
    exact ⟨⟨hp.1, hq.1⟩, allList_and cs hp.2 hq.2⟩
/-- The same on a list of trees. -/
theorem allList_and {P Q : node → Prop} :
    ∀ cs : List node, allList P cs → allList Q cs → allList (fun m => P m ∧ Q m) cs
  | [], _, _ => by rw [allList]; trivial
  | c :: cs, hp, hq => by
    rw [allList] at hp hq ⊢
    exact ⟨node.all_and c hp.1 hq.1, allList_and cs hp.2 hq.2⟩
end

/-- Among literal siblings that begin with distinct characters at most one
matches a given remainder. -/
theorem branchOk_match_unique (re : Regexp) (cs : List node) (q : Str) (hb : branchOk cs)
    (hd : ∀ c ∈ cs, c.dynamic = none) (c1 c2 : node) (h1 : c1 ∈ cs) (h2 : c2 ∈ cs)
    (f1 : (c1.lookup re q).1 = true) (f2 : (c2.lookup re q).1 = true) : c1 = c2 := by
  by_contra hne
  obtain ⟨a1, a2⟩ := (lookup_literal_found re c1 (hd c1 h1) q).1 f1
  obtain ⟨b1, b2⟩ := (lookup_literal_found re c2 (hd c2 h2) q).1 f2
  have hsym : Symmetric (fun a b : node => a.static.head? ≠ b.static.head?) :=
    fun a b h e => h e.symm
  have := List.Pairwise.forall hsym hb.2 h1 h2 hne
  apply this
  rw [head?_eq_of_isPrefix a1 a2, head?_eq_of_isPrefix b1 b2]

/-- Among literal siblings that begin with distinct characters the result of
`lookupChildren` does not depend on the order of the children. -/
theorem lookupChildren_perm (re : Regexp) (cs cs1 : List node) (q : Str) (hb : branchOk cs)
    (hd : ∀ c ∈ cs, c.dynamic = none) (hp : cs1.Perm cs) :
    lookupChildren re cs1 q = lookupChildren re cs q := by
  rcases lookupChildren_cases re cs q with ⟨pre, c, post, e1, -, e3, e4⟩ | ⟨e1, e2⟩
  · have hc : c ∈ cs := by rw [e1]; simp
    rcases lookupChildren_cases re cs1 q with ⟨pre1, d, post1, g1, -, g3, g4⟩ | ⟨g1, -⟩
    · have hdm : d ∈ cs := hp.mem_iff.1 (by rw [g1]; simp)
      rw [e4, g4, branchOk_match_unique re cs q hb hd d c hdm hc g3 e3]
    · have := g1 c (hp.mem_iff.2 hc)
      rw [e3] at this
      exact absurd this (by simp)
  · rcases lookupChildren_cases re cs1 q with ⟨pre1, d, post1, g1, -, g3, -⟩ | ⟨-, g2⟩
    · have hdm : d ∈ cs := hp.mem_iff.1 (by rw [g1]; simp)
      have := e1 d hdm
      rw [g3] at this
      exact absurd this (by simp)
    · rw [e2, g2]

/-- The trees built from `newNode(p0, true, h0)` by `add` with literal paths and
any handler chains are literal and keep the children of every node apart by
their first characters. -/
theorem builtLiteral_invariants (re : Regexp) (p0 : Str) (h0 : Option (List handlerFunc))
    (n : node) (hb : BuiltLiteral re p0 h0 n) : n.allLiteral ∧ n.branching := by
  induction hb with
  | root hn =>
    rw [newNode_static] at hn
    simp only [Option.some.injEq] at hn
    subst hn
    rw [allLiteral_mk, branching_mk]
    simp [branchOk]
  | add p h _ hadd ih =>
    obtain ⟨i1, i2⟩ := ih
    obtain ⟨j1, j2, -, -⟩ := addFuel_preserves re h _ _ p _ _ i1 i2 hadd
    exact ⟨j1, j2⟩

/-- The root of a tree built from a non-empty path keeps a non-empty text. -/
theorem built_root_static (re : Regexp) (p0 : Str) (h0 : Option (List handlerFunc)) (n : node)
    (hp : p0 ≠ []) (hb : BuiltLiteral re p0 h0 n) : n.static ≠ [] := by
  induction hb with
  | root hn =>
    rw [newNode_static] at hn
    simp only [Option.some.injEq] at hn
    subst hn
    exact hp
  | add p h hb1 hadd ih =>
    rename_i m m1 r
    obtain ⟨i1, i2⟩ := builtLiteral_invariants re p0 h0 m hb1
    by_cases hr : r = addResultNoCommonPrefix
    · subst hr
      rw [addFuel_zero_eq re _ m p true h m1 hadd]
      exact ih
    · exact ((addFuel_preserves re h _ m p r m1 i1 i2 hadd).2.2.2 hr).1

/-- C20, as the code has it. In a tree built from `newNode(p0, true, h0)` by
calls of `add` with literal paths, the root has a non-empty `static` when `p0`
is not empty, and at every node the children have a non-empty `static` and
begin with pairwise distinct characters; so for every remainder at most one
child of a node matches, and `lookupChildren` returns the same for every order
of the children. -/
theorem built_branch_disjoint (re : Regexp) (p0 : Str) (h0 : Option (List handlerFunc))
    (n : node) (hb : BuiltLiteral re p0 h0 n) :
    (p0 ≠ [] → n.static ≠ []) ∧
    n.all (fun m => branchOk m.children ∧ ∀ q : Str,
      (∀ c1 ∈ m.children, ∀ c2 ∈ m.children,
        (c1.lookup re q).1 = true → (c2.lookup re q).1 = true → c1 = c2) ∧
      ∀ cs1 : List node, cs1.Perm m.children →
        lookupChildren re cs1 q = lookupChildren re m.children q) := by
  refine ⟨fun hp => built_root_static re p0 h0 n hp hb, ?_⟩
  obtain ⟨i1, i2⟩ := builtLiteral_invariants re p0 h0 n hb
  have hboth := node.all_and n i1 i2
  refine node.all_of_subtree ?_ n hboth
  intro m hm
  obtain ⟨⟨-, hbo⟩, hkids⟩ := (node.all_iff_children _ m).1 hm
  have hd : ∀ c ∈ m.children, c.dynamic = none :=
    fun c hc => ((node.all_iff_children _ c).1 (hkids c hc)).1.1
  refine ⟨hbo, fun q => ⟨?_, ?_⟩⟩
  · intro c1 h1 c2 h2 f1 f2
    exact branchOk_match_unique re m.children q hbo hd c1 c2 h1 h2 f1 f2
  · intro cs1 hp
    exact lookupChildren_perm re m.children cs1 q hbo hd hp

/-- C20 on the tree holding `/foo/bar` and `/foo/baz`. -/
theorem built_branch_disjoint_witness :
    BuiltLiteral goRegexp "/foo/bar".toList (some [1]) exampleTwoRoutes ∧
    ("/foo/bar".toList ≠ [] → exampleTwoRoutes.static ≠ []) ∧
    exampleTwoRoutes.all (fun m => branchOk m.children ∧ ∀ q : Str,
      (∀ c1 ∈ m.children, ∀ c2 ∈ m.children,
        (c1.lookup goRegexp q).1 = true → (c2.lookup goRegexp q).1 = true → c1 = c2) ∧
      ∀ cs1 : List node, cs1.Perm m.children →
        lookupChildren goRegexp cs1 q = lookupChildren goRegexp m.children q) :=
  ⟨BuiltLiteral.add "/foo/baz".toList (some [2]) (BuiltLiteral.root rfl) (by rfl),
    built_branch_disjoint goRegexp "/foo/bar".toList (some [1]) exampleTwoRoutes
      (BuiltLiteral.add "/foo/baz".toList (some [2]) (BuiltLiteral.root rfl) (by rfl))⟩

/-- C20 fails as stated. The tree built from `newNode("", true, h0)` has a root
whose `static` text is empty, and every `add` leaves it so: the common prefix
with any path is empty and the call returns `addResultNoCommonPrefix`. -/
theorem built_root_empty_static :
    newNode goRegexp [] true (some [1]) = some (node.mk [] none (some [1]) []) ∧
    BuiltLiteral goRegexp [] (some [1]) (node.mk [] none (some [1]) []) ∧
    (node.mk [] none (some [1]) []).static = [] ∧
    (node.mk [] none (some [1]) []).add goRegexp "/a".toList true (some [2]) =
      some (addResultNoCommonPrefix, node.mk [] none (some [1]) []) :=
  ⟨rfl, BuiltLiteral.root rfl, rfl, by rfl⟩

end Goa
